import Mathlib

/-!
Verification of the core CBC Casper consensus library (p2p-voting).

The development shallowly embeds the Rust sources:
  * `src/justification.rs`  — `Justification`, `LatestMsgs`, `LatestMsgsHonest`,
    `SenderState`, the faulty-insert discipline and `sort_by_faultweight`;
  * `src/message.rs`        — `Message`, `depends`, `equivocates`,
    `Message::from_validator_state`;
  * `src/blockchain.rs`     — `Block`, `parse_blockchains`, `pick_heaviest`,
    `ghost`, `safety_oracles` (Bron–Kerbosch);
  * `src/example/integer.rs` and `tests/common/binary.rs` — concrete estimators.

Machine floats (`f64` / `WeightUnit`) are modelled by the type `Wt` below:
exact rationals extended with the IEEE special values `+inf`, `-inf` and
`nan`, with IEEE comparison semantics (nothing compares with `nan`).
Hash-based content ids are modelled by structural equality of the message
trees (content addressing makes the id a pure function of the structure,
and collisions are assumed impossible, as the sources do).
-/

/-- Model of the `f64` weight unit: finite rationals plus the IEEE special
values that the sources use (`INFINITY`, `NEG_INFINITY`, `NAN`). -/
inductive Wt where
  | nan : Wt
  | inf : Wt
  | ninf : Wt
  | fin (q : ℚ) : Wt
deriving DecidableEq, Repr

namespace Wt

/-- IEEE addition on `Wt`: `nan` absorbs, `inf + ninf = nan`. -/
def add : Wt → Wt → Wt
  | nan, _ => nan
  | _, nan => nan
  | inf, ninf => nan
  | ninf, inf => nan
  | inf, _ => inf
  | _, inf => inf
  | ninf, _ => ninf
  | _, ninf => ninf
  | fin a, fin b => fin (a + b)

/-- IEEE `<=`: false whenever either side is `nan`. -/
def le : Wt → Wt → Bool
  | nan, _ => false
  | _, nan => false
  | ninf, _ => true
  | _, ninf => false
  | _, inf => true
  | inf, _ => false
  | fin a, fin b => a ≤ b

/-- IEEE `<`: false whenever either side is `nan`. -/
def lt : Wt → Wt → Bool
  | nan, _ => false
  | _, nan => false
  | ninf, ninf => false
  | ninf, _ => true
  | _, ninf => false
  | inf, _ => false
  | _, inf => true
  | fin a, fin b => a < b

/-- Model of `PartialOrd::partial_cmp` on floats: `none` iff either side is `nan`. -/
def pcmp : Wt → Wt → Option Ordering
  | nan, _ => none
  | _, nan => none
  | ninf, ninf => some .eq
  | ninf, _ => some .lt
  | _, ninf => some .gt
  | inf, inf => some .eq
  | inf, _ => some .gt
  | _, inf => some .lt
  | fin a, fin b => some (compare a b)

/-- IEEE division, as used by the integer estimator's `running/total` test. -/
def div : Wt → Wt → Wt
  | nan, _ => nan
  | _, nan => nan
  | inf, inf => nan
  | inf, ninf => nan
  | ninf, inf => nan
  | ninf, ninf => nan
  | inf, fin b => if 0 ≤ b then inf else ninf
  | ninf, fin b => if 0 ≤ b then ninf else inf
  | fin _, inf => fin 0
  | fin _, ninf => fin 0
  | fin a, fin b =>
    if b = 0 then (if a = 0 then nan else if 0 < a then inf else ninf)
    else fin (a / b)

/-- Model of `WeightUnit::ZERO`. -/
def zero : Wt := fin 0

theorem add_comm (a b : Wt) : add a b = add b a := by
  cases a <;> cases b <;> simp [add, Rat.add_comm]

end Wt

/-- A CBC Casper message: `(sender, estimate, justification)`, identified by
its content (`src/message.rs`, `ProtoMessage`).  Content addressing makes two
messages equal exactly when their trees are equal. -/
inductive Msg (E : Type) where
  | mk (sender : ℕ) (est : E) (just : List (Msg E)) : Msg E

namespace Msg

variable {E : Type}

def sender : Msg E → ℕ
  | mk s _ _ => s

def est : Msg E → E
  | mk _ e _ => e

def just : Msg E → List (Msg E)
  | mk _ _ j => j

@[simp] theorem sender_mk (s : ℕ) (e : E) (j : List (Msg E)) : (mk s e j).sender = s := rfl

@[simp] theorem est_mk (s : ℕ) (e : E) (j : List (Msg E)) : (mk s e j).est = e := rfl

@[simp] theorem just_mk (s : ℕ) (e : E) (j : List (Msg E)) : (mk s e j).just = j := rfl

end Msg

mutual

/-- Content-id equality of messages is structural equality of the trees. -/
def Msg.decEq {E : Type} (de : DecidableEq E) : (a b : Msg E) → Decidable (a = b)
  | .mk s e j, .mk s' e' j' =>
    match Nat.decEq s s' with
    | isFalse h => isFalse (fun hh => by cases hh; exact h rfl)
    | isTrue h1 =>
      match de e e' with
      | isFalse h => isFalse (fun hh => by cases hh; exact h rfl)
      | isTrue h2 =>
        match Msg.decEqList de j j' with
        | isFalse h => isFalse (fun hh => by cases hh; exact h rfl)
        | isTrue h3 => isTrue (by rw [h1, h2, h3])

def Msg.decEqList {E : Type} (de : DecidableEq E) : (l l' : List (Msg E)) → Decidable (l = l')
  | [], [] => isTrue rfl
  | [], _ :: _ => isFalse (by simp)
  | _ :: _, [] => isFalse (by simp)
  | a :: l, b :: l' =>
    match Msg.decEq de a b with
    | isFalse h => isFalse (fun hh => by cases hh; exact h rfl)
    | isTrue h1 =>
      match Msg.decEqList de l l' with
      | isFalse h => isFalse (fun hh => by cases hh; exact h rfl)
      | isTrue h2 => isTrue (by rw [h1, h2])

end

instance {E : Type} [de : DecidableEq E] : DecidableEq (Msg E) := Msg.decEq de

variable {E : Type} [DecidableEq E]

mutual

/-- Model of `Message::depends` (`src/message.rs`): `other` is in the justification of
`self`, or recursively in a justification further down.  The source's visited
set and parallel traversal only speed up this reachability test. -/
def Msg.depends : Msg E → Msg E → Bool
  | .mk _ _ j, b => decide (b ∈ j) || Msg.dependsAny j b

/-- Helper for `Msg.depends`: some member of the list depends on `b`. -/
def Msg.dependsAny : List (Msg E) → Msg E → Bool
  | [], _ => false
  | c :: cs, b => Msg.depends c b || Msg.dependsAny cs b

end

@[simp] theorem Msg.dependsAny_nil (b : Msg E) : Msg.dependsAny ([] : List (Msg E)) b = false :=
  rfl

@[simp] theorem Msg.dependsAny_cons (c : Msg E) (cs : List (Msg E)) (b : Msg E) :
    Msg.dependsAny (c :: cs) b = (Msg.depends c b || Msg.dependsAny cs b) := rfl

theorem Msg.depends_def (a b : Msg E) :
    Msg.depends a b = (decide (b ∈ a.just) || Msg.dependsAny a.just b) := by
  cases a; rfl

theorem Msg.dependsAny_iff (l : List (Msg E)) (b : Msg E) :
    Msg.dependsAny l b = true ↔ ∃ c ∈ l, Msg.depends c b = true := by
  induction l with
  | nil => simp
  | cons c cs ih => simp [ih, or_and_right, exists_or]

/-- Reachability: `b` is reachable from `a`: it occurs in the justification closure. -/
theorem Msg.depends_iff (a b : Msg E) :
    Msg.depends a b = true ↔ b ∈ a.just ∨ ∃ c ∈ a.just, Msg.depends c b = true := by
  rw [Msg.depends_def]
  simp [Msg.dependsAny_iff]

theorem Msg.sizeOf_lt_of_depends_aux :
    ∀ (n : ℕ) {a b : Msg E}, sizeOf a ≤ n → Msg.depends a b = true → sizeOf b < sizeOf a := by
  intro n
  induction n with
  | zero =>
    intro a b hle _
    cases a with
    | mk s e j => simp [Msg.mk.sizeOf_spec] at hle
  | succ n ih =>
    intro a b hle h
    cases a with
    | mk s e j =>
      rw [Msg.depends_iff] at h
      have hj : sizeOf j < sizeOf (Msg.mk s e j) := by
        simp only [Msg.mk.sizeOf_spec]; omega
      rcases h with hmem | ⟨c, hc, hdep⟩
      · exact lt_trans (List.sizeOf_lt_of_mem hmem) hj
      · have hcs : sizeOf c < sizeOf j := List.sizeOf_lt_of_mem hc
        have hb : sizeOf b < sizeOf c := ih (by omega) hdep
        omega

/-- Dependency only reaches strictly smaller trees, hence the DAG is acyclic. -/
theorem Msg.sizeOf_lt_of_depends {a b : Msg E} (h : Msg.depends a b = true) :
    sizeOf b < sizeOf a :=
  Msg.sizeOf_lt_of_depends_aux (sizeOf a) le_rfl h

theorem Msg.depends_irrefl (a : Msg E) : Msg.depends a a = false := by
  by_contra h
  simp only [Bool.not_eq_false] at h
  exact absurd (Msg.sizeOf_lt_of_depends h) (lt_irrefl _)

/-- Model of `Message::equivocates` (`src/message.rs`). -/
def Msg.equivocates (a b : Msg E) : Bool :=
  decide (a ≠ b) && decide (a.sender = b.sender) && ! Msg.depends b a && ! Msg.depends a b

/-! ## Latest-messages bookkeeping (`src/justification.rs`) -/

/-- Model of `LatestMsgs<M>`: the `HashMap<Sender, HashSet<M>>` as an
association list in iteration order, each per-sender set as a list in
iteration order. -/
abbrev LM (E : Type) : Type := List (ℕ × List (Msg E))

namespace LM

variable {E : Type} [DecidableEq E]

/-- Model of `HashMap::get`. -/
def get (lm : LM E) (s : ℕ) : Option (List (Msg E)) :=
  match lm with
  | [] => none
  | (k, v) :: rest => if k = s then some v else get rest s

/-- Replace the binding of an existing key (model of mutating through
`get_mut`); leaves the map unchanged when the key is absent. -/
def setv (lm : LM E) (s : ℕ) (v : List (Msg E)) : LM E :=
  match lm with
  | [] => []
  | (k, w) :: rest => if k = s then (s, v) :: rest else (k, w) :: setv rest s v

/-- Model of `HashSet::insert`: returns the new set and whether the element was new. -/
def hsInsert (l : List (Msg E)) (m : Msg E) : List (Msg E) × Bool :=
  if m ∈ l then (l, false) else (l ++ [m], true)

/-- Model of `HashSet::remove`: returns the new set and whether the element was there. -/
def hsRemove (l : List (Msg E)) (m : Msg E) : List (Msg E) × Bool :=
  (l.erase m, decide (m ∈ l))

/-- One step of the fold inside `LatestMsgs::update`, for one `old_msg` of
the sender's cloned frontier set (`src/justification.rs:270-302`). -/
def updateStep (newMsg : Msg E) (st : LM E × Bool) (oldMsg : Msg E) : LM E × Bool :=
  let lm := st.1
  let acc := st.2
  let newIndependentFromOld := ! Msg.depends newMsg oldMsg
  if newIndependentFromOld && ! Msg.depends oldMsg newMsg then
    -- equivocation, old and new do not depend on each other
    let cur := (get lm newMsg.sender).getD []
    (setv lm newMsg.sender (hsInsert cur newMsg).1, (hsInsert cur newMsg).2 || acc)
  else if newIndependentFromOld then
    -- new actually older than old
    (lm, false || acc)
  else
    -- new newer than old: `msgs.remove(old) && msgs.insert(new)`
    let cur := (get lm newMsg.sender).getD []
    if (hsRemove cur oldMsg).2 then
      (setv lm newMsg.sender (hsInsert (hsRemove cur oldMsg).1 newMsg).1,
        (hsInsert (hsRemove cur oldMsg).1 newMsg).2 || acc)
    else
      (setv lm newMsg.sender (hsRemove cur oldMsg).1, false || acc)

/-- Model of `LatestMsgs::update` (`src/justification.rs:270-302`): returns the new
store and the boolean the source returns. -/
def update (lm : LM E) (newMsg : Msg E) : LM E × Bool :=
  match get lm newMsg.sender with
  | some latestFromSender =>
    (latestFromSender.filter (fun o => o ≠ newMsg)).foldl (updateStep newMsg) (lm, false)
  | none => (lm ++ [(newMsg.sender, [newMsg])], true)

/-- Model of `LatestMsgs::equivocate` (`src/justification.rs:305-309`). -/
def equivocate (lm : LM E) (msgNew : Msg E) : Bool :=
  ((get lm msgNew.sender).map
    (fun latest => latest.any (fun m => Msg.equivocates m msgNew))).getD false

/-- Model of `LatestMsgsHonest::from_latest_msgs` (`src/justification.rs:183-200`):
keep the single message of each non-equivocating sender with a singleton
frontier, collected into a set (modelled as a de-duplicating fold). -/
def honest (lm : LM E) (equivocators : Finset ℕ) : List (Msg E) :=
  (lm.filterMap (fun p =>
    if p.1 ∈ equivocators ∨ p.2.length ≠ 1 then none else p.2.head?)).foldl
    (fun acc m => if m ∈ acc then acc else acc ++ [m]) []

end LM

/-! ## Validator state and the faulty-insert discipline (`src/justification.rs`) -/

/-- Model of `SendersWeight`: the validator-name → weight registry, as an association
list; `weight` is the fallible lookup. -/
abbrev Weights : Type := List (ℕ × Wt)

/-- Model of `SendersWeight::weight`: `Ok(w)` modelled as `some w`. -/
def wlookup (w : Weights) (s : ℕ) : Option Wt :=
  match w with
  | [] => none
  | (k, v) :: rest => if k = s then some v else wlookup rest s

/-- Model of `SenderState<M>` (`src/justification.rs:342-356`). -/
structure SenderState (E : Type) where
  stateFaultWeight : Wt
  thr : Wt
  sendersWeights : Weights
  myLastMsg : Option (Msg E)
  latestMsgs : LM E
  equivocators : Finset ℕ
deriving DecidableEq

variable {E : Type} [DecidableEq E]

/-- Model of `Justification::insert` (`src/justification.rs:47-56`): push unless present. -/
def jInsert (j : List (Msg E)) (m : Msg E) : List (Msg E) × Bool :=
  if m ∈ j then (j, false) else (j ++ [m], true)

/-- Model of `Justification::faulty_insert` (`src/justification.rs:94-138`): returns
`(success, justification, sender_state)`. -/
def faultyInsert (j : List (Msg E)) (msg : Msg E) (st : SenderState E) :
    Bool × List (Msg E) × SenderState E :=
  let isEquivocation := LM.equivocate st.latestMsgs msg
  let senderWeight := (wlookup st.sendersWeights msg.sender).getD Wt.inf
  let alreadyInEquivocators := msg.sender ∈ st.equivocators
  if !isEquivocation || alreadyInEquivocators then
    let (j', success) := jInsert j msg
    if success then
      (true, j', { st with latestMsgs := (LM.update st.latestMsgs msg).1 })
    else
      (false, j', st)
  else
    if Wt.le (Wt.add senderWeight st.stateFaultWeight) st.thr then
      let (j', success) := jInsert j msg
      if success then
        (true, j',
          { st with
            latestMsgs := (LM.update st.latestMsgs msg).1
            equivocators := insert msg.sender st.equivocators
            stateFaultWeight :=
              if msg.sender ∈ st.equivocators then st.stateFaultWeight
              else Wt.add st.stateFaultWeight senderWeight })
      else
        (false, j', st)
    else
      (false, j, st)

/-- Stable insertion of `x` into a list sorted by the boolean relation `le`. -/
def insertSorted (le : α → α → Bool) (x : α) : List α → List α
  | [] => [x]
  | y :: ys => if le x y then x :: y :: ys else y :: insertSorted le x ys

/-- Sorting by repeated insertion: a deterministic model of
`sort_unstable_by` (any order consistent with the comparator). -/
def sortBy (le : α → α → Bool) : List α → List α
  | [] => []
  | x :: xs => insertSorted le x (sortBy le xs)

/-- The comparator of `SenderState::sort_by_faultweight`
(`src/justification.rs:429-431`); `mid` models the content-id order used as
the tie breaker when the weights are incomparable. -/
def faultweightCmp (mid : Msg E → ℕ) (p q : Msg E × Wt) : Ordering :=
  (Wt.pcmp p.2 q.2).getD (compare (mid p.1) (mid q.1))

/-- The fault-weight overhead of one message against the state
(`src/justification.rs:418-426`): a sender's weight for a fresh equivocation
(`none` when the weight lookup fails, dropping the message from the batch),
zero otherwise. -/
def overheadWt (st : SenderState E) (msg : Msg E) : Option Wt :=
  if msg.sender ∉ st.equivocators ∧ LM.equivocate st.latestMsgs msg = true then
    wlookup st.sendersWeights msg.sender
  else
    some Wt.zero

/-- Model of `SenderState::sort_by_faultweight` (`src/justification.rs:415-439`). -/
def sortByFaultweight (mid : Msg E → ℕ) (st : SenderState E) (msgs : List (Msg E)) :
    List (Msg E) :=
  (sortBy (fun p q => faultweightCmp mid p q ≠ Ordering.gt)
    (msgs.filterMap (fun msg => (overheadWt st msg).map (fun w => (msg, w))))).map Prod.fst

/-- The fold step of `faulty_inserts`: one `faulty_insert`, accumulating the
success flag. -/
def finsStep (acc : Bool × List (Msg E) × SenderState E) (msg : Msg E) :
    Bool × List (Msg E) × SenderState E :=
  ((acc.1 || (faultyInsert acc.2.1 msg acc.2.2).1), (faultyInsert acc.2.1 msg acc.2.2).2.1,
    (faultyInsert acc.2.1 msg acc.2.2).2.2)

/-- Model of `Justification::faulty_inserts` (`src/justification.rs:75-89`). -/
def faultyInserts (mid : Msg E → ℕ) (j : List (Msg E)) (msgs : List (Msg E))
    (st : SenderState E) : Bool × List (Msg E) × SenderState E :=
  (sortByFaultweight mid st msgs).foldl finsStep (false, j, st)

/-- One update of the non-slashing insertion path: a `faulty_insert` call or a
`faulty_inserts` batch. -/
inductive FOp (E : Type) where
  | single (m : Msg E) : FOp E
  | batch (ms : List (Msg E)) : FOp E

/-- Apply one insertion operation, threading justification and state. -/
def applyFOp (mid : Msg E → ℕ) (acc : List (Msg E) × SenderState E) (op : FOp E) :
    List (Msg E) × SenderState E :=
  match op with
  | .single m => ((faultyInsert acc.1 m acc.2).2.1, (faultyInsert acc.1 m acc.2).2.2)
  | .batch ms => ((faultyInserts mid acc.1 ms acc.2).2.1, (faultyInserts mid acc.1 ms acc.2).2.2)

/-- Apply a sequence of insertion operations. -/
def applyFOps (mid : Msg E → ℕ) (j : List (Msg E)) (st : SenderState E) (ops : List (FOp E)) :
    List (Msg E) × SenderState E :=
  ops.foldl (applyFOp mid) (j, st)

theorem faultyInsert_fault_cases (j : List (Msg E)) (msg : Msg E) (st : SenderState E) :
    (faultyInsert j msg st).2.2.thr = st.thr ∧
    (faultyInsert j msg st).2.2.sendersWeights = st.sendersWeights ∧
    ((faultyInsert j msg st).2.2.stateFaultWeight = st.stateFaultWeight ∨
     (Wt.le (Wt.add ((wlookup st.sendersWeights msg.sender).getD Wt.inf) st.stateFaultWeight)
        st.thr = true ∧
      (faultyInsert j msg st).2.2.stateFaultWeight =
        Wt.add st.stateFaultWeight ((wlookup st.sendersWeights msg.sender).getD Wt.inf))) := by
  unfold faultyInsert jInsert
  split_ifs <;> simp_all <;> split_ifs <;> simp_all

theorem faultyInsert_budget (j : List (Msg E)) (msg : Msg E) {st : SenderState E}
    (h : Wt.le st.stateFaultWeight st.thr = true) :
    Wt.le (faultyInsert j msg st).2.2.stateFaultWeight (faultyInsert j msg st).2.2.thr = true ∧
    (faultyInsert j msg st).2.2.thr = st.thr ∧
    (faultyInsert j msg st).2.2.sendersWeights = st.sendersWeights := by
  obtain ⟨hthr, hw, hc⟩ := faultyInsert_fault_cases j msg st
  refine ⟨?_, hthr, hw⟩
  rcases hc with hsame | ⟨hguard, hnew⟩
  · rw [hsame, hthr]; exact h
  · rw [hnew, hthr, Wt.add_comm]; exact hguard

theorem foldl_finsStep_budget (l : List (Msg E)) :
    ∀ (acc : Bool × List (Msg E) × SenderState E),
    Wt.le acc.2.2.stateFaultWeight acc.2.2.thr = true →
    Wt.le (l.foldl finsStep acc).2.2.stateFaultWeight (l.foldl finsStep acc).2.2.thr = true ∧
    (l.foldl finsStep acc).2.2.thr = acc.2.2.thr := by
  induction l with
  | nil => intro acc h; exact ⟨h, rfl⟩
  | cons m rest ih =>
    intro acc h
    obtain ⟨h1, h2, _⟩ := faultyInsert_budget acc.2.1 m h
    obtain ⟨ih1, ih2⟩ := ih (finsStep acc m) h1
    simp only [List.foldl_cons]
    exact ⟨ih1, ih2.trans h2⟩

theorem faultyInserts_budget (mid : Msg E → ℕ) (ms : List (Msg E)) (j : List (Msg E))
    (st : SenderState E) (h : Wt.le st.stateFaultWeight st.thr = true) :
    Wt.le (faultyInserts mid j ms st).2.2.stateFaultWeight
      (faultyInserts mid j ms st).2.2.thr = true ∧
    (faultyInserts mid j ms st).2.2.thr = st.thr := by
  unfold faultyInserts
  exact foldl_finsStep_budget _ (false, j, st) h

theorem foldl_applyFOp_budget (mid : Msg E → ℕ) (ops : List (FOp E)) :
    ∀ (acc : List (Msg E) × SenderState E),
    Wt.le acc.2.stateFaultWeight acc.2.thr = true →
    Wt.le (ops.foldl (applyFOp mid) acc).2.stateFaultWeight
      (ops.foldl (applyFOp mid) acc).2.thr = true ∧
    (ops.foldl (applyFOp mid) acc).2.thr = acc.2.thr := by
  induction ops with
  | nil => intro acc h; exact ⟨h, rfl⟩
  | cons op rest ih =>
    intro acc h
    have hstep : Wt.le (applyFOp mid acc op).2.stateFaultWeight (applyFOp mid acc op).2.thr
        = true ∧ (applyFOp mid acc op).2.thr = acc.2.thr := by
      cases op with
      | single m =>
        obtain ⟨h1, h2, _⟩ := faultyInsert_budget acc.1 m h
        exact ⟨h1, h2⟩
      | batch ms =>
        obtain ⟨h1, h2⟩ := faultyInserts_budget mid ms acc.1 acc.2 h
        exact ⟨h1, h2⟩
    obtain ⟨ih1, ih2⟩ := ih (applyFOp mid acc op) hstep.1
    simp only [List.foldl_cons]
    exact ⟨ih1, ih2.trans hstep.2⟩

theorem applyFOps_budget (mid : Msg E → ℕ) (ops : List (FOp E)) (j : List (Msg E))
    (st : SenderState E) (h : Wt.le st.stateFaultWeight st.thr = true) :
    Wt.le (applyFOps mid j st ops).2.stateFaultWeight (applyFOps mid j st ops).2.thr = true ∧
    (applyFOps mid j st ops).2.thr = st.thr := by
  unfold applyFOps
  exact foldl_applyFOp_budget mid ops (j, st) h

theorem Wt.le_eq_false_of_lt {a b : Wt} (h : Wt.lt a b = true) : Wt.le b a = false := by
  cases a <;> cases b <;> simp_all [Wt.lt, Wt.le]

theorem faultyInsert_new_equivocation (j : List (Msg E)) (msg : Msg E) (st : SenderState E)
    (hEq : LM.equivocate st.latestMsgs msg = true) (hNot : msg.sender ∉ st.equivocators)
    (hNotIn : msg ∉ j) :
    ((faultyInsert j msg st).1 = true ↔
      Wt.le (Wt.add ((wlookup st.sendersWeights msg.sender).getD Wt.inf) st.stateFaultWeight)
        st.thr = true) ∧
    ((faultyInsert j msg st).1 = true →
      (faultyInsert j msg st).2.2.equivocators = insert msg.sender st.equivocators ∧
      (faultyInsert j msg st).2.2.stateFaultWeight =
        Wt.add st.stateFaultWeight ((wlookup st.sendersWeights msg.sender).getD Wt.inf) ∧
      (faultyInsert j msg st).2.1 = j ++ [msg]) := by
  unfold faultyInsert jInsert
  simp only [hEq, Bool.not_true, decide_eq_true_eq]
  split_ifs <;> simp_all

/-- Claim C1. For every sender state whose fault weight does not exceed its
threshold and whose registered weights are non-negative, any sequence of
`faulty_insert` / `faulty_inserts` calls (the non-slashing path) keeps the
fault weight below the threshold; and a message that newly equivocates
(sender not yet an equivocator) and is not already in the justification is
admitted iff `fault_weight + w ≤ threshold` (`w` being the sender's weight,
`+∞` when unknown), in which case the sender joins `equivocators` and the
fault weight increases by `w`. -/
theorem claim_C1 {E : Type} [DecidableEq E] :
    (∀ (mid : Msg E → ℕ) (j : List (Msg E)) (st : SenderState E) (ops : List (FOp E)),
      Wt.le st.stateFaultWeight st.thr = true →
      (∀ p ∈ st.sendersWeights, Wt.le Wt.zero p.2 = true) →
      Wt.le (applyFOps mid j st ops).2.stateFaultWeight
        (applyFOps mid j st ops).2.thr = true) ∧
    (∀ (j : List (Msg E)) (msg : Msg E) (st : SenderState E),
      LM.equivocate st.latestMsgs msg = true → msg.sender ∉ st.equivocators → msg ∉ j →
      (((faultyInsert j msg st).1 = true ↔
        Wt.le (Wt.add st.stateFaultWeight
          ((wlookup st.sendersWeights msg.sender).getD Wt.inf)) st.thr = true) ∧
      ((faultyInsert j msg st).1 = true →
        (faultyInsert j msg st).2.2.equivocators = insert msg.sender st.equivocators ∧
        (faultyInsert j msg st).2.2.stateFaultWeight =
          Wt.add st.stateFaultWeight
            ((wlookup st.sendersWeights msg.sender).getD Wt.inf)))) := by
  constructor
  · intro mid j st ops h _
    exact (applyFOps_budget mid ops j st h).1
  · intro j msg st hEq hNot hNotIn
    obtain ⟨h1, h2⟩ := faultyInsert_new_equivocation j msg st hEq hNot hNotIn
    refine ⟨?_, fun h => ⟨(h2 h).1, (h2 h).2.1⟩⟩
    rw [h1, Wt.add_comm]

theorem claim_C1_witness :
    (Wt.le
      (applyFOps (fun _ => 0) [] (SenderState.mk Wt.zero Wt.inf [(0, Wt.fin 1)] none [] ∅)
        [FOp.single (Msg.mk 0 true []), FOp.batch [Msg.mk 1 false []]]).2.stateFaultWeight
      (applyFOps (fun _ => 0) [] (SenderState.mk Wt.zero Wt.inf [(0, Wt.fin 1)] none [] ∅)
        [FOp.single (Msg.mk 0 true []), FOp.batch [Msg.mk 1 false []]]).2.thr = true) ∧
    (((faultyInsert [] (Msg.mk 0 true [])
        (SenderState.mk Wt.zero (Wt.fin 2) [(0, Wt.fin 1)] none
          [(0, [Msg.mk 0 false []])] ∅)).1 = true ↔
      Wt.le (Wt.add Wt.zero ((wlookup [(0, Wt.fin 1)] (Msg.mk 0 true ([] : List (Msg Bool))).sender).getD Wt.inf))
        (Wt.fin 2) = true)) := by
  constructor
  · exact claim_C1.1 (fun _ => 0) [] _ [FOp.single (Msg.mk 0 true []), FOp.batch [Msg.mk 1 false []]]
      (by decide) (by decide)
  · exact (claim_C1.2 [] (Msg.mk 0 true []) _ (by decide) (by decide) (by decide)).1

/-- Claim C10. Refusal is atomic: a newly equivocating message whose sender
weight on top of the current fault weight exceeds the threshold is rejected
with `false`, and both the justification and the returned sender state are
exactly the inputs. -/
theorem claim_C10 {E : Type} [DecidableEq E] (j : List (Msg E)) (msg : Msg E)
    (st : SenderState E) (hEq : LM.equivocate st.latestMsgs msg = true)
    (hNot : msg.sender ∉ st.equivocators)
    (hExceeds : Wt.lt st.thr
      (Wt.add st.stateFaultWeight
        ((wlookup st.sendersWeights msg.sender).getD Wt.inf)) = true) :
    faultyInsert j msg st = (false, j, st) := by
  have hguard : Wt.le
      (Wt.add ((wlookup st.sendersWeights msg.sender).getD Wt.inf) st.stateFaultWeight)
      st.thr = false := by
    rw [Wt.add_comm]
    exact Wt.le_eq_false_of_lt hExceeds
  unfold faultyInsert jInsert
  simp [hEq, hNot, hguard]

theorem claim_C10_witness :
    faultyInsert [] (Msg.mk 0 true [])
      (SenderState.mk Wt.zero Wt.zero [] none
        [(0, [Msg.mk 0 false []])] ∅) =
      (false, [],
        (SenderState.mk Wt.zero Wt.zero [] none
          [(0, [Msg.mk 0 false []])] ∅)) :=
  claim_C10 [] (Msg.mk 0 true [])
    (SenderState.mk Wt.zero Wt.zero [] none [(0, [Msg.mk 0 false []])] ∅)
    (by decide) (by decide) (by decide)

/-! ## C4: the honest view -/

theorem foldl_dedup_mem (l : List α) [DecidableEq α] :
    ∀ (acc : List α) (x : α),
    (x ∈ l.foldl (fun acc m => if m ∈ acc then acc else acc ++ [m]) acc ↔ x ∈ acc ∨ x ∈ l) := by
  induction l with
  | nil => simp
  | cons y ys ih =>
    intro acc x
    simp only [List.foldl_cons]
    by_cases hy : y ∈ acc
    · rw [if_pos hy, ih]
      constructor
      · rintro (h | h)
        · exact Or.inl h
        · exact Or.inr (List.mem_cons_of_mem _ h)
      · rintro (h | h)
        · exact Or.inl h
        · rcases List.mem_cons.1 h with rfl | h
          · exact Or.inl hy
          · exact Or.inr h
    · rw [if_neg hy, ih]
      simp only [List.mem_append, List.mem_singleton, List.mem_cons]
      tauto

theorem foldl_dedup_of_nodup (l : List α) [DecidableEq α] :
    ∀ (acc : List α), l.Nodup → (∀ x ∈ l, x ∉ acc) →
    l.foldl (fun acc m => if m ∈ acc then acc else acc ++ [m]) acc = acc ++ l := by
  induction l with
  | nil => simp
  | cons y ys ih =>
    intro acc hnd hdisj
    simp only [List.foldl_cons]
    rw [if_neg (hdisj y (List.mem_cons_self y ys))]
    rw [ih (acc ++ [y]) (List.Nodup.of_cons hnd)]
    · simp
    · intro x hx
      simp only [List.mem_append, List.mem_singleton]
      rintro (h | rfl)
      · exact hdisj x (List.mem_cons_of_mem _ hx) h
      · exact (List.nodup_cons.1 hnd).1 hx

theorem LM.get_eq_of_mem {E : Type} [DecidableEq E] (lm : LM E) (k : ℕ) (v : List (Msg E))
    (hkeys : (lm.map Prod.fst).Nodup) (hmem : (k, v) ∈ lm) : LM.get lm k = some v := by
  induction lm with
  | nil => cases hmem
  | cons p rest ih =>
    have hkeys' : p.1 ∉ rest.map Prod.fst ∧ (rest.map Prod.fst).Nodup := by
      rw [List.map_cons, List.nodup_cons] at hkeys
      exact hkeys
    rcases List.mem_cons.1 hmem with rfl | hmem'
    · simp [LM.get]
    · have hk : p.1 ≠ k := by
        intro hkk
        exact hkeys'.1 (by simpa [hkk] using List.mem_map_of_mem Prod.fst hmem')
      cases p with
      | mk k' v' =>
        simp only [LM.get, if_neg hk]
        exact ih hkeys'.2 hmem'

theorem LM.mem_of_get {E : Type} [DecidableEq E] (lm : LM E) (k : ℕ) (v : List (Msg E))
    (h : LM.get lm k = some v) : (k, v) ∈ lm := by
  induction lm with
  | nil => cases h
  | cons p rest ih =>
    cases p with
    | mk k' v' =>
      simp only [LM.get] at h
      split_ifs at h with hk
      · cases h
        rw [hk]
        exact List.mem_cons_self _ _
      · exact List.mem_cons_of_mem _ (ih h)

theorem honestFilter_eq_some {E : Type} [DecidableEq E] (eqv : Finset ℕ)
    (p : ℕ × List (Msg E)) (b : Msg E)
    (h : (if p.1 ∈ eqv ∨ p.2.length ≠ 1 then none else p.2.head?) = some b) :
    p.1 ∉ eqv ∧ p.2 = [b] := by
  split_ifs at h with hc
  push_neg at hc
  obtain ⟨a, ha⟩ := List.length_eq_one.1 hc.2
  refine ⟨hc.1, ?_⟩
  rw [ha] at h ⊢
  simp only [List.head?_cons, Option.some.injEq] at h
  rw [h]

theorem honestFilter_nodup {E : Type} [DecidableEq E] (lm : LM E) (eqv : Finset ℕ)
    (hkeys : (lm.map Prod.fst).Nodup)
    (hsender : ∀ p ∈ lm, ∀ m ∈ p.2, Msg.sender m = p.1) :
    (lm.filterMap (fun p =>
      if p.1 ∈ eqv ∨ p.2.length ≠ 1 then none else p.2.head?)).Nodup := by
  induction lm with
  | nil => simp
  | cons p rest ih =>
    have hkeys' : p.1 ∉ rest.map Prod.fst ∧ (rest.map Prod.fst).Nodup := by
      rw [List.map_cons, List.nodup_cons] at hkeys
      exact hkeys
    have hs' : ∀ q ∈ rest, ∀ m ∈ q.2, Msg.sender m = q.1 :=
      fun q hq => hsender q (List.mem_cons_of_mem _ hq)
    rw [List.filterMap_cons]
    rcases hfp : (if p.1 ∈ eqv ∨ p.2.length ≠ 1 then none else p.2.head?) with _ | m
    · exact ih hkeys'.2 hs'
    · rw [List.nodup_cons]
      refine ⟨?_, ih hkeys'.2 hs'⟩
      intro hmem
      obtain ⟨q, hq, hfq⟩ := List.mem_filterMap.1 hmem
      obtain ⟨_, hq2⟩ := honestFilter_eq_some eqv q m hfq
      obtain ⟨_, hp2⟩ := honestFilter_eq_some eqv p m hfp
      have h1 : Msg.sender m = q.1 := hs' q hq m (by rw [hq2]; exact List.mem_singleton.2 rfl)
      have h2 : Msg.sender m = p.1 :=
        hsender p (List.mem_cons_self _ _) m (by rw [hp2]; exact List.mem_singleton.2 rfl)
      exact hkeys'.1 (by rw [← h2, h1]; exact List.mem_map_of_mem Prod.fst hq)

theorem honestFilter_length {E : Type} [DecidableEq E] (lm : LM E) (eqv : Finset ℕ)
    (hsing : ∀ p ∈ lm, p.1 ∉ eqv → p.2.length = 1) :
    (lm.filterMap (fun p =>
      if p.1 ∈ eqv ∨ p.2.length ≠ 1 then none else p.2.head?)).length =
    lm.countP (fun p => decide (p.1 ∉ eqv)) := by
  induction lm with
  | nil => simp
  | cons p rest ih =>
    have hs' : ∀ q ∈ rest, q.1 ∉ eqv → q.2.length = 1 :=
      fun q hq => hsing q (List.mem_cons_of_mem _ hq)
    rw [List.filterMap_cons, List.countP_cons]
    by_cases hin : p.1 ∈ eqv
    · simp only [hin, true_or, if_true]
      simp [ih hs', hin]
    · have hlen := hsing p (List.mem_cons_self _ _) hin
      obtain ⟨a, ha⟩ := List.length_eq_one.1 hlen
      simp only [hin, hlen, ne_eq, not_true_eq_false, or_false, if_false, ha,
        List.head?_cons]
      simp [ih hs', hin]

/-- Claim C4. The honest view contains `m` iff `m`'s sender is not an
equivocator and its frontier is the singleton `{m}`; and when the
equivocators all occur among the stored senders and every non-equivocating
sender has a singleton frontier, the honest view has `|latest| - |equivocators|`
messages.  The two hypotheses are the documented shape of `LatestMsgs`:
distinct sender keys, and messages filed under their own sender. -/
theorem claim_C4 {E : Type} [DecidableEq E] (lm : LM E) (eqv : Finset ℕ)
    (hkeys : (lm.map Prod.fst).Nodup)
    (hsender : ∀ p ∈ lm, ∀ m ∈ p.2, Msg.sender m = p.1) :
    (∀ m : Msg E, m ∈ LM.honest lm eqv ↔
      (m.sender ∉ eqv ∧ LM.get lm m.sender = some [m])) ∧
    ((∀ s ∈ eqv, s ∈ lm.map Prod.fst) → (∀ p ∈ lm, p.1 ∉ eqv → p.2.length = 1) →
      (LM.honest lm eqv).length = lm.length - eqv.card) := by
  constructor
  · intro m
    unfold LM.honest
    rw [foldl_dedup_mem]
    simp only [List.not_mem_nil, false_or, List.mem_filterMap]
    constructor
    · rintro ⟨p, hp, hfp⟩
      obtain ⟨hne, hp2⟩ := honestFilter_eq_some eqv p m hfp
      have hsm : Msg.sender m = p.1 :=
        hsender p hp m (by rw [hp2]; exact List.mem_singleton.2 rfl)
      refine ⟨by rw [hsm]; exact hne, ?_⟩
      rw [hsm]
      exact LM.get_eq_of_mem lm p.1 [m] hkeys (by rw [← hp2]; exact hp)
    · rintro ⟨hne, hget⟩
      refine ⟨(m.sender, [m]), LM.mem_of_get lm m.sender [m] hget, ?_⟩
      simp [hne]
  · intro hsub hsing
    unfold LM.honest
    rw [foldl_dedup_of_nodup _ _ (honestFilter_nodup lm eqv hkeys hsender)
      (by intro x _ hx; cases hx)]
    rw [List.nil_append, honestFilter_length lm eqv hsing]
    have hsplit := List.length_eq_countP_add_countP (fun p => decide (p.1 ∈ eqv)) lm
    have hcompl : lm.countP (fun p => decide (p.1 ∉ eqv)) =
        lm.countP (fun a => decide (¬ decide (a.1 ∈ eqv) = true)) := by
      apply List.countP_congr
      intro p _
      simp
    have hcard : lm.countP (fun p => decide (p.1 ∈ eqv)) = eqv.card := by
      have hmap := List.countP_map (fun s : ℕ => decide (s ∈ eqv)) Prod.fst (l := lm)
      simp only [Function.comp_def] at hmap
      rw [← hmap]
      rw [List.countP_eq_length_filter]
      have hnd : ((lm.map Prod.fst).filter (fun s => decide (s ∈ eqv))).Nodup :=
        List.Nodup.filter _ hkeys
      rw [← List.toFinset_card_of_nodup hnd]
      congr 1
      apply Finset.ext
      intro s
      simp only [List.mem_toFinset, List.mem_filter, decide_eq_true_eq]
      exact ⟨fun h => h.2, fun h => ⟨hsub s h, h⟩⟩
    rw [hcompl]
    omega

theorem claim_C4_witness :
    ((Msg.mk 0 true [] : Msg Bool) ∈
      LM.honest [(0, [Msg.mk 0 true []]), (1, [Msg.mk 1 true [], Msg.mk 1 false []])] {1} ↔
      ((Msg.mk 0 true [] : Msg Bool).sender ∉ ({1} : Finset ℕ) ∧
        LM.get [(0, [Msg.mk 0 true []]), (1, [Msg.mk 1 true [], Msg.mk 1 false []])]
          (Msg.mk 0 true [] : Msg Bool).sender = some [Msg.mk 0 true []])) ∧
    (LM.honest [(0, [Msg.mk 0 true []]), (1, [Msg.mk 1 true [], Msg.mk 1 false []])]
      ({1} : Finset ℕ)).length =
      ([(0, [Msg.mk 0 true []]), (1, [Msg.mk 1 true [], Msg.mk 1 false []])] : LM Bool).length -
        ({1} : Finset ℕ).card :=
  ⟨(claim_C4 [(0, [Msg.mk 0 true []]), (1, [Msg.mk 1 true [], Msg.mk 1 false []])] {1}
      (by decide) (by decide)).1 (Msg.mk 0 true []),
   (claim_C4 [(0, [Msg.mk 0 true []]), (1, [Msg.mk 1 true [], Msg.mk 1 false []])] {1}
      (by decide) (by decide)).2 (by decide) (by decide)⟩

/-! ## C3: `Message::from_validator_state` (`src/message.rs:135-155`) -/

/-- Model of `message::Error<E>` (`src/message.rs:35-39`). -/
inductive MsgError (Er : Type) where
  | estimator (e : Er) : MsgError Er
  | noNewMessage : MsgError Er
deriving DecidableEq

/-- Modelled from the spec: `Justification::from(LatestMessagesHonest)` is not
under `src/` (only its caller `Message::from_validator_state` is); spec §4.5
step 3 forms a justification from the honest frontier with "insertion order
deterministic by sender id then message id".  `mid` models the content-id
order. -/
def justFromHonest (mid : Msg E → ℕ) (honest : List (Msg E)) : List (Msg E) :=
  sortBy (fun a b =>
    decide (a.sender < b.sender ∨ (a.sender = b.sender ∧ mid a ≤ mid b))) honest

/-- Model of `Message::from_validator_state` (`src/message.rs:135-155`), generic over
the estimator function. -/
def fromValidatorState {E Er : Type} [DecidableEq E] (mid : Msg E → ℕ)
    (est : List (Msg E) → Weights → Except Er E) (sender : ℕ) (st : SenderState E) :
    Except (MsgError Er) (Msg E) :=
  let latestMessagesHonest := LM.honest st.latestMsgs st.equivocators
  if latestMessagesHonest.isEmpty then
    .error .noNewMessage
  else
    match est latestMessagesHonest st.sendersWeights with
    | .error e => .error (.estimator e)
    | .ok v => .ok (Msg.mk sender v (justFromHonest mid latestMessagesHonest))

/-- Claim C3. `from_validator_state` fails with `NoNewMessage` iff the honest
frontier is empty; otherwise it runs the estimator on the honest frontier and
the state's weights, propagating failures as `Estimator` errors, and on
success returns the message with the given sender, the estimator's result,
and a justification formed from the honest frontier. -/
theorem claim_C3 {E Er : Type} [DecidableEq E] (mid : Msg E → ℕ)
    (est : List (Msg E) → Weights → Except Er E) (sender : ℕ) (st : SenderState E) :
    (fromValidatorState mid est sender st = .error .noNewMessage ↔
      LM.honest st.latestMsgs st.equivocators = []) ∧
    (LM.honest st.latestMsgs st.equivocators ≠ [] →
      (∀ e, est (LM.honest st.latestMsgs st.equivocators) st.sendersWeights = .error e →
        fromValidatorState mid est sender st = .error (.estimator e)) ∧
      (∀ v, est (LM.honest st.latestMsgs st.equivocators) st.sendersWeights = .ok v →
        fromValidatorState mid est sender st =
          .ok (Msg.mk sender v
            (justFromHonest mid (LM.honest st.latestMsgs st.equivocators))))) := by
  have hdef : fromValidatorState mid est sender st =
      (if (LM.honest st.latestMsgs st.equivocators).isEmpty then
        Except.error MsgError.noNewMessage
      else match est (LM.honest st.latestMsgs st.equivocators) st.sendersWeights with
        | .error e => Except.error (MsgError.estimator e)
        | .ok v => Except.ok (Msg.mk sender v
            (justFromHonest mid (LM.honest st.latestMsgs st.equivocators)))) := rfl
  by_cases hempty : LM.honest st.latestMsgs st.equivocators = []
  · constructor
    · simp [hdef, List.isEmpty_iff, hempty]
    · intro h
      exact absurd hempty h
  · have hne : (LM.honest st.latestMsgs st.equivocators).isEmpty = false := by
      rw [← Bool.not_eq_true, List.isEmpty_iff]
      exact hempty
    rw [hdef, hne]
    simp only [Bool.false_eq_true, if_false]
    constructor
    · constructor
      · intro h
        rcases hr : est (LM.honest st.latestMsgs st.equivocators) st.sendersWeights with e | v
        · rw [hr] at h
          cases h
        · rw [hr] at h
          cases h
      · intro h
        exact absurd h hempty
    · intro _
      constructor
      · intro e he
        rw [he]
      · intro v hv
        rw [hv]

theorem claim_C3_witness :
    ((fromValidatorState (fun _ => 0) (fun _ _ => (Except.ok true : Except Unit Bool)) 2
        (SenderState.mk Wt.zero Wt.zero [] none [(0, [Msg.mk 0 true []])] ∅) =
      Except.error MsgError.noNewMessage ↔
      LM.honest [(0, [Msg.mk 0 true []])] (∅ : Finset ℕ) = []) ∧
     fromValidatorState (fun _ => 0) (fun _ _ => (Except.ok true : Except Unit Bool)) 2
        (SenderState.mk Wt.zero Wt.zero [] none [(0, [Msg.mk 0 true []])] ∅) =
      Except.ok (Msg.mk 2 true
        (justFromHonest (fun _ => 0) (LM.honest [(0, [Msg.mk 0 true []])] ∅))) : Prop) :=
  ⟨(claim_C3 (fun _ => 0) (fun _ _ => (Except.ok true : Except Unit Bool)) 2
      (SenderState.mk Wt.zero Wt.zero [] none [(0, [Msg.mk 0 true []])] ∅)).1,
   ((claim_C3 (fun _ => 0) (fun _ _ => (Except.ok true : Except Unit Bool)) 2
      (SenderState.mk Wt.zero Wt.zero [] none [(0, [Msg.mk 0 true []])] ∅)).2
      (by decide)).2 true rfl⟩

/-! ## C9: the binary estimator (`tests/common/binary.rs:61-88`) -/

/-- IEEE `>=`: false whenever either side is `nan`. -/
def Wt.ge (a b : Wt) : Bool := Wt.le b a

/-- The fold step of `BoolWrapper::estimate`: add the validator's weight
(`NAN` when the registry has no entry) to the accumulator of its vote. -/
def binStep (w : Weights) (acc : Wt × Wt) (msg : Msg Bool) : Wt × Wt :=
  let validatorWeight := (wlookup w msg.sender).getD Wt.nan
  if msg.est then (Wt.add acc.1 validatorWeight, acc.2)
  else (acc.1, Wt.add acc.2 validatorWeight)

/-- Model of `BoolWrapper::estimate` (`tests/common/binary.rs:61-88`); the source
always returns `Ok`, so the model returns the boolean directly. -/
def binaryEstimate (honest : List (Msg Bool)) (w : Weights) : Bool :=
  let acc := honest.foldl (binStep w) (Wt.zero, Wt.zero)
  Wt.ge acc.1 acc.2

/-- The claim's reading of the estimator: a validator with no entry in the
registry "does not count toward either accumulator". -/
def binaryEstimateSkipUnknown (honest : List (Msg Bool)) (w : Weights) : Bool :=
  let acc := honest.foldl (fun (acc : Wt × Wt) msg =>
    match wlookup w msg.sender with
    | none => acc
    | some vw => if msg.est then (Wt.add acc.1 vw, acc.2) else (acc.1, Wt.add acc.2 vw))
    (Wt.zero, Wt.zero)
  Wt.ge acc.1 acc.2

theorem claim_C9_counterexample :
    binaryEstimate [Msg.mk 0 true []] [] = false ∧
    binaryEstimateSkipUnknown [Msg.mk 0 true []] [] = true := by
  decide

theorem Wt.nan_add (x : Wt) : Wt.add Wt.nan x = Wt.nan := by cases x <;> rfl

theorem Wt.add_nan (x : Wt) : Wt.add x Wt.nan = Wt.nan := by cases x <;> rfl

theorem binFold_nan (w : Weights) (l : List (Msg Bool)) :
    ∀ acc : Wt × Wt, (acc.1 = Wt.nan ∨ acc.2 = Wt.nan) →
    ((l.foldl (binStep w) acc).1 = Wt.nan ∨ (l.foldl (binStep w) acc).2 = Wt.nan) := by
  induction l with
  | nil => intro acc h; exact h
  | cons m rest ih =>
    intro acc h
    rw [List.foldl_cons]
    apply ih
    unfold binStep
    by_cases hm : m.est = true
    · rcases h with h | h
      · left; simp [hm, h, Wt.nan_add]
      · right; simp [hm, h]
    · rcases h with h | h
      · left; simp [hm, h]
      · right; simp [hm, h, Wt.nan_add]

theorem Wt.ge_eq_false_of_nan {a b : Wt} (h : a = Wt.nan ∨ b = Wt.nan) :
    Wt.ge a b = false := by
  rcases h with h | h <;> rw [h] <;> cases a <;> cases b <;> simp_all [Wt.ge, Wt.le]

theorem binFold_skip_eq (w : Weights) (l : List (Msg Bool))
    (hall : ∀ m ∈ l, (wlookup w m.sender).isSome = true) :
    ∀ acc : Wt × Wt, l.foldl (binStep w) acc =
      l.foldl (fun (acc : Wt × Wt) msg =>
        match wlookup w msg.sender with
        | none => acc
        | some vw =>
          if msg.est then (Wt.add acc.1 vw, acc.2) else (acc.1, Wt.add acc.2 vw)) acc := by
  induction l with
  | nil => intro _; rfl
  | cons m rest ih =>
    intro acc
    rcases hw : wlookup w m.sender with _ | vw
    · exact absurd (hall m (List.mem_cons_self _ _)) (by rw [hw]; simp)
    · rw [List.foldl_cons, List.foldl_cons]
      have h1 : binStep w acc m =
          (if m.est then (Wt.add acc.1 vw, acc.2) else (acc.1, Wt.add acc.2 vw)) := by
        unfold binStep
        rw [hw]
        rfl
      rw [h1]
      simp only [hw]
      exact ih (fun x hx => hall x (List.mem_cons_of_mem _ hx)) _

/-- Claim C9, amended. The binary estimator returns `true_w >= false_w` under
IEEE semantics where an unregistered validator contributes `NAN` to the
accumulator of its vote: any unknown sender in the frontier therefore forces
the estimate to `false`; when every sender is registered the estimator agrees
with the claim's "unknown senders do not count" computation; the empty
frontier (a 0-0 tie) yields `true`. -/
theorem claim_C9 (honest : List (Msg Bool)) (w : Weights) :
    (binaryEstimate honest w =
      Wt.ge (honest.foldl (binStep w) (Wt.zero, Wt.zero)).1
        (honest.foldl (binStep w) (Wt.zero, Wt.zero)).2) ∧
    ((∃ m ∈ honest, wlookup w m.sender = none) → binaryEstimate honest w = false) ∧
    ((∀ m ∈ honest, (wlookup w m.sender).isSome = true) →
      binaryEstimate honest w = binaryEstimateSkipUnknown honest w) ∧
    binaryEstimate [] w = true := by
  refine ⟨rfl, ?_, ?_, by simp [binaryEstimate, Wt.ge, Wt.le, Wt.zero]⟩
  · rintro ⟨m, hm, hunknown⟩
    obtain ⟨l₁, l₂, rfl⟩ := List.append_of_mem hm
    unfold binaryEstimate
    apply Wt.ge_eq_false_of_nan
    rw [List.foldl_append, List.foldl_cons]
    apply binFold_nan
    unfold binStep
    rw [hunknown]
    by_cases hm' : m.est = true
    · left; simp [hm', Wt.add_nan]
    · right; simp [hm', Wt.add_nan]
  · intro hall
    unfold binaryEstimate binaryEstimateSkipUnknown
    rw [binFold_skip_eq w honest hall]

theorem claim_C9_witness :
    binaryEstimate [Msg.mk 0 true []] [] = false ∧
    binaryEstimate [Msg.mk 0 true []] [(0, Wt.inf)] =
      binaryEstimateSkipUnknown [Msg.mk 0 true []] [(0, Wt.inf)] :=
  ⟨(claim_C9 [Msg.mk 0 true []] []).2.1 ⟨Msg.mk 0 true [], by decide, by decide⟩,
   (claim_C9 [Msg.mk 0 true []] [(0, Wt.inf)]).2.2.1 (by decide)⟩

/-! ## C8: the scalar integer estimator (`src/example/integer.rs:22-67`) -/

/-- The union of all per-sender latest sets, collected into a `HashSet`
(modelled as a de-duplicating fold), as `integer.rs` builds
`msgs_sorted_by_estimate` before sorting. -/
def unionMsgs (lm : LM ℕ) : List (Msg ℕ) :=
  lm.foldl (fun acc p =>
    p.2.foldl (fun acc m => if m ∈ acc then acc else acc ++ [m]) acc) []

/-- The `sort_unstable_by` comparator of `integer.rs:41-51`: compare sender
weights (`ZERO` when the lookup fails), treating incomparable as `Greater`. -/
def intCmpLe (w : Weights) (a b : Msg ℕ) : Bool :=
  ((Wt.pcmp ((wlookup w a.sender).getD Wt.zero)
      ((wlookup w b.sender).getD Wt.zero)).getD Ordering.gt) ≠ Ordering.gt

/-- Messages sorted by sender weight ascending (`integer.rs:35-51`). -/
def sortedMsgs (lm : LM ℕ) (w : Weights) : List (Msg ℕ) :=
  sortBy (intCmpLe w) (unionMsgs lm)

/-- Model of `total_weight` (`integer.rs:52-57`). -/
def totalWeight (w : Weights) (l : List (Msg ℕ)) : Wt :=
  l.foldl (fun acc x => Wt.add acc ((wlookup w x.sender).getD Wt.zero)) Wt.zero

/-- The `while running_weight / total_weight < 0.5` scan of `integer.rs:58-65`;
`none` models the `unwrap` panic on an exhausted iterator. -/
def intScan (w : Weights) (total : Wt) : Wt → List (Msg ℕ) → Option ℕ
  | _, [] => none
  | running, m :: rest =>
    if Wt.lt (Wt.div running total) (Wt.fin (1/2)) then
      intScan w total (Wt.add running ((wlookup w m.sender).getD Wt.zero)) rest
    else
      some m.est

/-- Model of `u32::mk_estimate` (`src/example/integer.rs:22-67`). -/
def intMkEstimate (lm : LM ℕ) (w : Weights) : Option ℕ :=
  intScan w (totalWeight w (sortedMsgs lm w)) Wt.zero (sortedMsgs lm w)

/-- The claim's scan: sum *until the running total exceeds half the total*
(strictly), then return the next message's estimate. -/
def intScanClaim (w : Weights) (total : Wt) : Wt → List (Msg ℕ) → Option ℕ
  | _, [] => none
  | running, m :: rest =>
    if Wt.lt (Wt.div total (Wt.fin 2)) running = false then
      intScanClaim w total (Wt.add running ((wlookup w m.sender).getD Wt.zero)) rest
    else
      some m.est

/-- The estimator as the claim describes it. -/
def intMkEstimateClaim (lm : LM ℕ) (w : Weights) : Option ℕ :=
  intScanClaim w (totalWeight w (sortedMsgs lm w)) Wt.zero (sortedMsgs lm w)

theorem claim_C8_counterexample :
    intMkEstimate [(0, [Msg.mk 0 10 []]), (1, [Msg.mk 1 20 []])] [(0, Wt.fin 1), (1, Wt.fin 1)] =
      some 20 ∧
    intMkEstimateClaim [(0, [Msg.mk 0 10 []]), (1, [Msg.mk 1 20 []])]
      [(0, Wt.fin 1), (1, Wt.fin 1)] = none := by
  have hs : sortedMsgs [(0, [Msg.mk 0 10 []]), (1, [Msg.mk 1 20 []])]
      [(0, Wt.fin 1), (1, Wt.fin 1)] = [Msg.mk 0 10 [], Msg.mk 1 20 []] := by
    simp [sortedMsgs, unionMsgs, sortBy, insertSorted, intCmpLe, Wt.pcmp, wlookup,
      Msg.sender, compare, compareOfLessAndEq]
  have ht : totalWeight [(0, Wt.fin 1), (1, Wt.fin 1)] [Msg.mk 0 10 [], Msg.mk 1 20 []] =
      Wt.fin 2 := by
    norm_num [totalWeight, wlookup, Msg.sender, Wt.add, Wt.zero]
  constructor
  · unfold intMkEstimate
    rw [hs, ht]
    norm_num [intScan, wlookup, Msg.sender, Msg.est, Wt.add, Wt.zero, Wt.div, Wt.lt]
  · unfold intMkEstimateClaim
    rw [hs, ht]
    norm_num [intScanClaim, wlookup, Msg.sender, Msg.est, Wt.add, Wt.zero, Wt.div, Wt.lt]

/-- The rational value of the code's `ZERO`-defaulted weight lookup. -/
def qweight (w : Weights) (m : Msg ℕ) : ℚ :=
  match (wlookup w m.sender).getD Wt.zero with
  | Wt.fin q => q
  | _ => 0

/-- Total weight as an exact rational. -/
def qsum (w : Weights) (l : List (Msg ℕ)) : ℚ :=
  l.foldl (fun acc m => acc + qweight w m) 0

/-- The amended claim's scan over exact rationals: consume messages while the
running total is strictly below half the total, then return the next
message's estimate; `none` when the scan exhausted the list (the source's
`unwrap` panic). -/
def halfScan (w : Weights) (t : ℚ) : ℚ → List (Msg ℕ) → Option ℕ
  | _, [] => none
  | r, m :: rest =>
    if r * 2 < t then halfScan w t (r + qweight w m) rest else some m.est

/-- The estimator as amended: same ascending sort, stop once the running
total reaches at least half (not strictly more than half). -/
def intMkEstimateAmended (lm : LM ℕ) (w : Weights) : Option ℕ :=
  halfScan w (qsum w (sortedMsgs lm w)) 0 (sortedMsgs lm w)

theorem wlookup_mem (w : Weights) (s : ℕ) (v : Wt) (h : wlookup w s = some v) : (s, v) ∈ w := by
  induction w with
  | nil => cases h
  | cons p rest ih =>
    cases p with
    | mk k' v' =>
      simp only [wlookup] at h
      split_ifs at h with hk
      · cases h
        rw [hk]
        exact List.mem_cons_self _ _
      · exact List.mem_cons_of_mem _ (ih h)

theorem getD_fin (w : Weights) (hwfin : ∀ p ∈ w, ∃ q : ℚ, 0 ≤ q ∧ p.2 = Wt.fin q)
    (m : Msg ℕ) :
    (wlookup w m.sender).getD Wt.zero = Wt.fin (qweight w m) ∧ 0 ≤ qweight w m := by
  unfold qweight
  rcases hl : wlookup w m.sender with _ | v
  · exact ⟨rfl, le_refl 0⟩
  · obtain ⟨q, hq, hv⟩ := hwfin (m.sender, v) (wlookup_mem w m.sender v hl)
    simp only at hv
    rw [hv]
    exact ⟨rfl, hq⟩

theorem totalWeight_fin (w : Weights) (hwfin : ∀ p ∈ w, ∃ q : ℚ, 0 ≤ q ∧ p.2 = Wt.fin q)
    (l : List (Msg ℕ)) :
    ∀ r : ℚ, l.foldl (fun acc x => Wt.add acc ((wlookup w x.sender).getD Wt.zero)) (Wt.fin r) =
      Wt.fin (l.foldl (fun acc m => acc + qweight w m) r) := by
  induction l with
  | nil => intro r; rfl
  | cons m rest ih =>
    intro r
    rw [List.foldl_cons, List.foldl_cons, (getD_fin w hwfin m).1]
    exact ih (r + qweight w m)

theorem intScan_cond (r t : ℚ) (ht : 0 < t) :
    Wt.lt (Wt.div (Wt.fin r) (Wt.fin t)) (Wt.fin (1/2)) = decide (r * 2 < t) := by
  have hne : t ≠ 0 := ne_of_gt ht
  simp only [Wt.div, if_neg hne, Wt.lt]
  rw [decide_eq_decide]
  rw [div_lt_iff ht]
  constructor <;> intro h <;> linarith

theorem intScan_eq_halfScan (w : Weights) (hwfin : ∀ p ∈ w, ∃ q : ℚ, 0 ≤ q ∧ p.2 = Wt.fin q)
    (t : ℚ) (ht : 0 < t) (msgs : List (Msg ℕ)) :
    ∀ r : ℚ, intScan w (Wt.fin t) (Wt.fin r) msgs = halfScan w t r msgs := by
  induction msgs with
  | nil => intro r; rfl
  | cons m rest ih =>
    intro r
    unfold intScan halfScan
    rw [intScan_cond r t ht, (getD_fin w hwfin m).1]
    by_cases hc : r * 2 < t
    · rw [if_pos (by simpa using hc), if_pos hc]
      exact ih (r + qweight w m)
    · rw [if_neg (by simpa using hc), if_neg hc]

/-- Claim C8, amended. For a latest-messages store whose registry holds only
non-negative finite weights and whose total sorted weight is positive, the
integer estimator sorts the union of latest messages by sender weight
ascending and scans, summing weights *while the running total is strictly
below half the total* (it stops as soon as the running total reaches half,
not strictly beyond it), then yields the estimate of the next message — or
fails (the source's `unwrap` panic, modelled as `none`) when the scan has
consumed every message. -/
theorem claim_C8 (lm : LM ℕ) (w : Weights)
    (hwfin : ∀ p ∈ w, ∃ q : ℚ, 0 ≤ q ∧ p.2 = Wt.fin q)
    (hpos : Wt.lt Wt.zero (totalWeight w (sortedMsgs lm w)) = true) :
    intMkEstimate lm w = intMkEstimateAmended lm w := by
  have htot : totalWeight w (sortedMsgs lm w) = Wt.fin (qsum w (sortedMsgs lm w)) := by
    unfold totalWeight qsum
    exact totalWeight_fin w hwfin (sortedMsgs lm w) 0
  have hq : 0 < qsum w (sortedMsgs lm w) := by
    rw [htot] at hpos
    simpa [Wt.lt, Wt.zero] using hpos
  unfold intMkEstimate intMkEstimateAmended
  rw [htot]
  exact intScan_eq_halfScan w hwfin _ hq (sortedMsgs lm w) 0

theorem claim_C8_witness :
    intMkEstimate [(0, [Msg.mk 0 7 []])] [(0, Wt.fin 1)] =
      intMkEstimateAmended [(0, [Msg.mk 0 7 []])] [(0, Wt.fin 1)] :=
  claim_C8 [(0, [Msg.mk 0 7 []])] [(0, Wt.fin 1)]
    (by
      intro p hp
      rcases List.mem_cons.1 hp with rfl | hp
      · exact ⟨1, by simp, rfl⟩
      · cases hp)
    (by simp [totalWeight, sortedMsgs, unionMsgs, sortBy, insertSorted, Wt.add, Wt.zero,
      Wt.lt, wlookup])

/-! ## C5: `LatestMsgs::update` -/

theorem Msg.depends_asymm {E : Type} [DecidableEq E] {a b : Msg E}
    (h : Msg.depends a b = true) : Msg.depends b a = false := by
  by_contra h'
  rw [Bool.not_eq_false] at h'
  have h1 := Msg.sizeOf_lt_of_depends h
  have h2 := Msg.sizeOf_lt_of_depends h'
  omega

namespace LM

variable {E : Type} [DecidableEq E]

theorem get_setv_self (lm : LM E) (s : ℕ) (v : List (Msg E))
    (h : (get lm s).isSome = true) : get (setv lm s v) s = some v := by
  induction lm with
  | nil => simp [get] at h
  | cons p rest ih =>
    cases p with
    | mk k w =>
      by_cases hk : k = s
      · simp [setv, get, hk]
      · simp only [setv, get, if_neg hk]
        simp only [get, if_neg hk] at h
        exact ih h

theorem setv_setv (lm : LM E) (s : ℕ) (v v' : List (Msg E)) :
    setv (setv lm s v) s v' = setv lm s v' := by
  induction lm with
  | nil => rfl
  | cons p rest ih =>
    cases p with
    | mk k w =>
      by_cases hk : k = s
      · simp [setv, hk]
      · simp [setv, if_neg hk, ih]

theorem setv_self (lm : LM E) (s : ℕ) (v : List (Msg E)) (h : get lm s = some v) :
    setv lm s v = lm := by
  induction lm with
  | nil => rfl
  | cons p rest ih =>
    cases p with
    | mk k w =>
      by_cases hk : k = s
      · subst hk
        have h' : w = v := by simpa [get] using h
        simp [setv, h']
      · simp only [get, if_neg hk] at h
        simp [setv, if_neg hk, ih h]

/-- The fold step of `update`, on the sender's own frontier set alone. -/
def setStep (m : Msg E) (st : List (Msg E) × Bool) (old : Msg E) : List (Msg E) × Bool :=
  let S := st.1
  let acc := st.2
  if ! Msg.depends m old && ! Msg.depends old m then
    ((hsInsert S m).1, (hsInsert S m).2 || acc)
  else if ! Msg.depends m old then
    (S, false || acc)
  else
    if (hsRemove S old).2 then
      ((hsInsert (hsRemove S old).1 m).1, (hsInsert (hsRemove S old).1 m).2 || acc)
    else
      ((hsRemove S old).1, false || acc)

theorem updateStep_rep (lm : LM E) (m : Msg E) (hsome : (get lm m.sender).isSome = true)
    (S : List (Msg E)) (acc : Bool) (old : Msg E) :
    updateStep m (setv lm m.sender S, acc) old =
      (setv lm m.sender (setStep m (S, acc) old).1, (setStep m (S, acc) old).2) := by
  unfold updateStep setStep
  have hget : get (setv lm m.sender S) m.sender = some S := get_setv_self lm _ S hsome
  simp only [hget, Option.getD_some, setv_setv]
  split_ifs <;> rfl

theorem foldl_updateStep_rep (lm : LM E) (m : Msg E)
    (hsome : (get lm m.sender).isSome = true) (l : List (Msg E)) :
    ∀ (S : List (Msg E)) (acc : Bool),
    l.foldl (updateStep m) (setv lm m.sender S, acc) =
      (setv lm m.sender (l.foldl (setStep m) (S, acc)).1,
        (l.foldl (setStep m) (S, acc)).2) := by
  induction l with
  | nil => intro S acc; rfl
  | cons old rest ih =>
    intro S acc
    rw [List.foldl_cons, List.foldl_cons, updateStep_rep lm m hsome S acc old]
    exact ih _ _

/-- Representation: `update`, rewritten through the sender's frontier set. -/
theorem update_rep (lm : LM E) (m : Msg E) (cur : List (Msg E))
    (hget : get lm m.sender = some cur) :
    update lm m =
      (setv lm m.sender
        ((cur.filter (fun o => o ≠ m)).foldl (setStep m) (cur, false)).1,
       ((cur.filter (fun o => o ≠ m)).foldl (setStep m) (cur, false)).2) := by
  unfold update
  rw [hget]
  dsimp only
  have hsome : (get lm m.sender).isSome = true := by rw [hget]; rfl
  have hstart : (lm, false) = (setv lm m.sender cur, false) := by
    rw [setv_self lm m.sender cur hget]
  rw [hstart, foldl_updateStep_rep lm m hsome]

end LM

theorem claim_C5_counterexample :
    Msg.depends (Msg.mk 0 1 [Msg.mk 0 0 []]) (Msg.mk 0 0 []) = true ∧
    (Msg.mk 0 0 []) ∉ ([] : List (Msg ℕ)) ∧
    (LM.update [(0, [Msg.mk 0 1 [Msg.mk 0 0 []], Msg.mk 0 2 []])] (Msg.mk 0 0 [])).2 = true ∧
    (LM.update [(0, [Msg.mk 0 1 [Msg.mk 0 0 []], Msg.mk 0 2 []])] (Msg.mk 0 0 [])).1 ≠
      [(0, [Msg.mk 0 1 [Msg.mk 0 0 []], Msg.mk 0 2 []])] := by
  decide

namespace LM

variable {E : Type} [DecidableEq E]

theorem setFold_dup (m : Msg E) (cur : List (Msg E)) (hm : m ∈ cur)
    (hind : ∀ x ∈ cur, ∀ y ∈ cur, x ≠ y → Msg.depends x y = false) :
    ∀ l : List (Msg E), (∀ x ∈ l, x ∈ cur ∧ x ≠ m) →
    l.foldl (setStep m) (cur, false) = (cur, false) := by
  intro l
  induction l with
  | nil => intro _; rfl
  | cons x rest ih =>
    intro hx
    obtain ⟨hxc, hxm⟩ := hx x (List.mem_cons_self _ _)
    have h1 : Msg.depends m x = false := hind m hm x hxc (Ne.symm hxm)
    have h2 : Msg.depends x m = false := hind x hxc m hm hxm
    rw [List.foldl_cons]
    have hstep : setStep m (cur, false) x = (cur, false) := by
      unfold setStep hsInsert
      simp [h1, h2, hm]
    rw [hstep]
    exact ih (fun y hy => hx y (List.mem_cons_of_mem _ hy))

theorem setFold_dominated (m : Msg E) (cur : List (Msg E))
    (hdom : ∀ old ∈ cur, Msg.depends old m = true) :
    ∀ l : List (Msg E), (∀ x ∈ l, x ∈ cur) →
    l.foldl (setStep m) (cur, false) = (cur, false) := by
  intro l
  induction l with
  | nil => intro _; rfl
  | cons x rest ih =>
    intro hx
    have hxc := hx x (List.mem_cons_self _ _)
    have h1 : Msg.depends x m = true := hdom x hxc
    have h2 : Msg.depends m x = false := Msg.depends_asymm h1
    rw [List.foldl_cons]
    have hstep : setStep m (cur, false) x = (cur, false) := by
      unfold setStep
      simp [h1, h2]
    rw [hstep]
    exact ih (fun y hy => hx y (List.mem_cons_of_mem _ hy))

theorem setFold_mem_iff (m : Msg E) (cur : List (Msg E)) (hm : m ∉ cur) :
    ∀ l : List (Msg E), (∀ x ∈ l, x ∈ cur) → ∀ (S : List (Msg E)) (acc : Bool),
    (acc = true ↔ m ∈ S) → (acc = false → S = cur) →
    ((l.foldl (setStep m) (S, acc)).2 = true ↔ m ∈ (l.foldl (setStep m) (S, acc)).1) ∧
    ((l.foldl (setStep m) (S, acc)).2 = false → (l.foldl (setStep m) (S, acc)).1 = cur) := by
  intro l
  induction l with
  | nil => intro _ S acc ha hb; exact ⟨ha, hb⟩
  | cons old rest ih =>
    intro hx S acc ha hb
    have hoc := hx old (List.mem_cons_self _ _)
    have hom : m ≠ old := fun h => hm (h ▸ hoc)
    rw [List.foldl_cons]
    have hrest := fun y hy => hx y (List.mem_cons_of_mem _ hy)
    rcases hstep : setStep m (S, acc) old with ⟨S', acc'⟩
    have hinv : (acc' = true ↔ m ∈ S') ∧ (acc' = false → S' = cur) := by
      unfold setStep at hstep
      by_cases h1 : Msg.depends m old = false
      · by_cases h2 : Msg.depends old m = false
        · -- mutual independence: insert
          rw [if_pos (by simp [h1, h2])] at hstep
          unfold hsInsert at hstep
          by_cases hmem : m ∈ S
          · rw [if_pos hmem] at hstep
            simp only [Prod.mk.injEq] at hstep
            have hacc : acc = true := ha.2 hmem
            rw [← hstep.1, ← hstep.2, hacc]
            exact ⟨by simp [hmem], by simp⟩
          · rw [if_neg hmem] at hstep
            simp only [Prod.mk.injEq] at hstep
            rw [← hstep.1, ← hstep.2]
            exact ⟨by simp, by simp⟩
        · -- new older than old
          rw [Bool.not_eq_false] at h2
          rw [if_neg (by simp [h2]), if_pos (by simp [h1])] at hstep
          simp only [Bool.false_or, Prod.mk.injEq] at hstep
          rw [← hstep.1, ← hstep.2]
          exact ⟨ha, hb⟩
      · -- new newer than old: remove and insert
        rw [Bool.not_eq_false] at h1
        rw [if_neg (by simp [h1]), if_neg (by simp [h1])] at hstep
        unfold hsRemove hsInsert at hstep
        by_cases hos : old ∈ S
        · rw [if_pos (by simpa using hos)] at hstep
          have hmS1 : m ∈ S.erase old ↔ m ∈ S := by
            rw [List.mem_erase_of_ne hom]
          by_cases hmem : m ∈ S.erase old
          · rw [if_pos hmem] at hstep
            simp only [Bool.false_or, Prod.mk.injEq] at hstep
            have hacc : acc = true := ha.2 (hmS1.1 hmem)
            rw [← hstep.1, ← hstep.2, hacc]
            exact ⟨by simp [hmem], by simp⟩
          · rw [if_neg hmem] at hstep
            simp only [Prod.mk.injEq] at hstep
            rw [← hstep.1, ← hstep.2]
            exact ⟨by simp, by simp⟩
        · rw [if_neg (by simpa using hos)] at hstep
          simp only [Bool.false_or, Prod.mk.injEq] at hstep
          have hacc : acc = true := by
            by_contra hacc'
            rw [Bool.not_eq_true] at hacc'
            exact hos (hb hacc' ▸ hoc)
          rw [← hstep.1, ← hstep.2, List.erase_of_not_mem hos, hacc]
          exact ⟨(by rw [hacc] at ha; exact ha), by simp⟩
    exact ih hrest S' acc' hinv.1 hinv.2

end LM

/-- Claim C5, amended. `LatestMsgs::update`: an unknown sender's message is
stored as the singleton frontier (returning `true`); a duplicate of an
existing latest message leaves the store unchanged (`false`); a message
dominated by *every* existing latest message of its sender leaves the store
unchanged (`false`) — dominated by only some of several is *added alongside
the independent ones*; against a singleton frontier, a dominating message
replaces the old one and a mutually-independent message is added alongside
(both `true`); and under the documented frontier invariant (the sender's
latest messages pairwise independent) the returned boolean is `true` iff the
store changed. -/
theorem claim_C5 {E : Type} [DecidableEq E] (lm : LM E) (m : Msg E) :
    (LM.get lm m.sender = none → LM.update lm m = (lm ++ [(m.sender, [m])], true)) ∧
    (∀ cur, LM.get lm m.sender = some cur →
      ((m ∈ cur → (∀ x ∈ cur, ∀ y ∈ cur, x ≠ y → Msg.depends x y = false) →
        LM.update lm m = (lm, false)) ∧
       (m ∉ cur → (∀ old ∈ cur, Msg.depends old m = true) →
        LM.update lm m = (lm, false)) ∧
       (∀ old, cur = [old] → m ≠ old → Msg.depends m old = true →
        LM.update lm m = (LM.setv lm m.sender [m], true)) ∧
       (∀ old, cur = [old] → m ≠ old → Msg.depends m old = false →
        Msg.depends old m = false →
        LM.update lm m = (LM.setv lm m.sender [old, m], true)) ∧
       ((∀ x ∈ cur, ∀ y ∈ cur, x ≠ y → Msg.depends x y = false) →
        ((LM.update lm m).2 = true ↔ (LM.update lm m).1 ≠ lm)))) := by
  constructor
  · intro hnone
    unfold LM.update
    rw [hnone]
  · intro cur hget
    have hsome : (LM.get lm m.sender).isSome = true := by rw [hget]; rfl
    refine ⟨?_, ?_, ?_, ?_, ?_⟩
    · intro hm hind
      rw [LM.update_rep lm m cur hget]
      rw [LM.setFold_dup m cur hm hind _ (fun x hx =>
        ⟨List.mem_of_mem_filter hx, by simpa using List.of_mem_filter hx⟩)]
      rw [LM.setv_self lm m.sender cur hget]
    · intro hm hdom
      rw [LM.update_rep lm m cur hget]
      rw [LM.setFold_dominated m cur hdom _ (fun x hx => List.mem_of_mem_filter hx)]
      rw [LM.setv_self lm m.sender cur hget]
    · intro old hcur hmo hdep
      subst hcur
      rw [LM.update_rep lm m [old] hget]
      have hfl : List.filter (fun o => decide (o ≠ m)) [old] = [old] := by
        simp [Ne.symm hmo]
      rw [hfl]
      have hstep : LM.setStep m ([old], false) old = ([m], true) := by
        unfold LM.setStep LM.hsRemove LM.hsInsert
        simp [hdep, Msg.depends_asymm hdep]
      simp only [List.foldl_cons, List.foldl_nil, hstep]
    · intro old hcur hmo hdep1 hdep2
      subst hcur
      rw [LM.update_rep lm m [old] hget]
      have hfl : List.filter (fun o => decide (o ≠ m)) [old] = [old] := by
        simp [Ne.symm hmo]
      rw [hfl]
      have hstep : LM.setStep m ([old], false) old = ([old, m], true) := by
        unfold LM.setStep LM.hsInsert
        simp [hdep1, hdep2, hmo]
      simp only [List.foldl_cons, List.foldl_nil, hstep]
    · intro hind
      by_cases hm : m ∈ cur
      · have hupd : LM.update lm m = (lm, false) := by
          rw [LM.update_rep lm m cur hget]
          rw [LM.setFold_dup m cur hm hind _ (fun x hx =>
            ⟨List.mem_of_mem_filter hx, by simpa using List.of_mem_filter hx⟩)]
          rw [LM.setv_self lm m.sender cur hget]
        rw [hupd]
        simp
      · have hfl : cur.filter (fun o => decide (o ≠ m)) = cur := by
          apply List.filter_eq_self.2
          intro x hx
          simp only [decide_eq_true_eq]
          exact fun h => hm (h ▸ hx)
        have hE := LM.setFold_mem_iff m cur hm cur (fun x hx => hx) cur false
          (by simp [hm]) (fun _ => rfl)
        rw [LM.update_rep lm m cur hget, hfl]
        rcases hG : cur.foldl (LM.setStep m) (cur, false) with ⟨Sf, accf⟩
        rw [hG] at hE
        simp only at hE ⊢
        constructor
        · intro hacc heq
          have hmf : m ∈ Sf := hE.1.1 hacc
          have : LM.get (LM.setv lm m.sender Sf) m.sender = some Sf :=
            LM.get_setv_self lm m.sender Sf hsome
          rw [heq, hget] at this
          cases this
          exact hm hmf
        · intro hne
          by_contra hacc
          rw [Bool.not_eq_true] at hacc
          have hSf : Sf = cur := hE.2 hacc
          rw [hSf, LM.setv_self lm m.sender cur hget] at hne
          exact hne rfl

theorem claim_C5_witness :
    LM.update ([] : LM ℕ) (Msg.mk 0 5 []) = ([(0, [Msg.mk 0 5 []])], true) ∧
    LM.update [(0, [Msg.mk 0 5 []])] (Msg.mk 0 7 [Msg.mk 0 5 []]) =
      (LM.setv [(0, [Msg.mk 0 5 []])] 0 [Msg.mk 0 7 [Msg.mk 0 5 []]], true) ∧
    LM.update [(0, [Msg.mk 0 5 []])] (Msg.mk 0 5 []) = ([(0, [Msg.mk 0 5 []])], false) :=
  ⟨(claim_C5 ([] : LM ℕ) (Msg.mk 0 5 [])).1 rfl,
   ((claim_C5 [(0, [Msg.mk 0 5 []])] (Msg.mk 0 7 [Msg.mk 0 5 []])).2 [Msg.mk 0 5 []]
      (by decide)).2.2.1 (Msg.mk 0 5 []) rfl (by decide) (by decide),
   ((claim_C5 [(0, [Msg.mk 0 5 []])] (Msg.mk 0 5 [])).2 [Msg.mk 0 5 []]
      (by decide)).1 (by decide) (by decide)⟩

/-! ## C6: batch determinism (`sort_by_faultweight` + `faulty_inserts`) -/

theorem claim_C6_counterexample :
    List.Perm [Msg.mk 0 true [], Msg.mk 1 true []] [Msg.mk 1 true [], Msg.mk 0 true []] ∧
    (faultyInserts Msg.sender [] [Msg.mk 0 true [], Msg.mk 1 true []]
      (SenderState.mk Wt.zero Wt.inf [] none [] ∅)).2.1 ≠
    (faultyInserts Msg.sender [] [Msg.mk 1 true [], Msg.mk 0 true []]
      (SenderState.mk Wt.zero Wt.inf [] none [] ∅)).2.1 := by
  decide

theorem Wt.lt_trans {a b c : Wt} (h1 : Wt.lt a b = true) (h2 : Wt.lt b c = true) :
    Wt.lt a c = true := by
  cases a <;> cases b <;> cases c <;> simp_all [Wt.lt]
  linarith

theorem Wt.lt_asymm {a b : Wt} (h : Wt.lt a b = true) : Wt.lt b a = false := by
  cases a <;> cases b <;> simp_all [Wt.lt]
  linarith

theorem Wt.pcmp_lt_of_lt {a b : Wt} (h : Wt.lt a b = true) : Wt.pcmp a b = some .lt := by
  cases a <;> cases b <;> simp_all [Wt.lt, Wt.pcmp, compare, compareOfLessAndEq]

theorem Wt.pcmp_gt_of_lt {a b : Wt} (h : Wt.lt a b = true) : Wt.pcmp b a = some .gt := by
  cases a <;> cases b <;> simp_all [Wt.lt, Wt.pcmp]
  rename_i q1 q2
  have h1 : ¬ q2 < q1 := not_lt_of_gt h
  have h2 : q2 ≠ q1 := ne_of_gt h
  simp [compare, compareOfLessAndEq, h1, h2]

theorem insertSorted_perm {α : Type} (le : α → α → Bool) (x : α) (l : List α) :
    List.Perm (insertSorted le x l) (x :: l) := by
  induction l with
  | nil => exact List.Perm.refl _
  | cons y ys ih =>
    unfold insertSorted
    by_cases h : le x y = true
    · rw [if_pos h]
    · rw [if_neg h]
      exact (ih.cons y).trans (List.Perm.swap x y ys)

theorem sortBy_perm {α : Type} (le : α → α → Bool) (l : List α) :
    List.Perm (sortBy le l) l := by
  induction l with
  | nil => exact List.Perm.refl _
  | cons x xs ih =>
    unfold sortBy
    exact (insertSorted_perm le x (sortBy le xs)).trans (ih.cons x)

theorem insertSorted_pairwise {α : Type} (le : α → α → Bool) (r : α → α → Prop)
    (htrans : ∀ a b c, r a b → r b c → r a c) (L : List α)
    (ha : ∀ p ∈ L, ∀ q ∈ L, p ≠ q → (le p q = true ↔ r p q))
    (htri : ∀ p ∈ L, ∀ q ∈ L, p ≠ q → (r p q ∨ r q p)) :
    ∀ (M : List α) (x : α), x ∈ L → (∀ y ∈ M, y ∈ L) → (x :: M).Nodup →
    M.Pairwise r → (insertSorted le x M).Pairwise r := by
  intro M
  induction M with
  | nil =>
    intro x _ _ _ _
    exact List.pairwise_singleton r x
  | cons y ys ih =>
    intro x hxL hML hnd hp
    have hyL : y ∈ L := hML y (List.mem_cons_self _ _)
    have hysL : ∀ z ∈ ys, z ∈ L := fun z hz => hML z (List.mem_cons_of_mem _ hz)
    have hxy : x ≠ y := by
      intro h
      exact (List.nodup_cons.1 hnd).1 (h ▸ List.mem_cons_self y ys)
    unfold insertSorted
    by_cases hle : le x y = true
    · rw [if_pos hle]
      have hrxy : r x y := (ha x hxL y hyL hxy).1 hle
      refine List.Pairwise.cons ?_ hp
      intro z hz
      rcases List.mem_cons.1 hz with rfl | hz
      · exact hrxy
      · exact htrans x y z hrxy (List.rel_of_pairwise_cons hp hz)
    · rw [if_neg hle]
      have hryx : r y x := by
        rcases htri x hxL y hyL hxy with h | h
        · exact absurd ((ha x hxL y hyL hxy).2 h) hle
        · exact h
      have hndtail : (x :: ys).Nodup := by
        rw [List.nodup_cons] at hnd ⊢
        refine ⟨fun h => hnd.1 (List.mem_cons_of_mem _ h), ?_⟩
        exact (List.nodup_cons.1 hnd.2).2
      refine List.Pairwise.cons ?_ (ih x hxL hysL hndtail (List.Pairwise.of_cons hp))
      intro z hz
      have hz' := (insertSorted_perm le x ys).mem_iff.1 hz
      rcases List.mem_cons.1 hz' with rfl | hz'
      · exact hryx
      · exact List.rel_of_pairwise_cons hp hz'

theorem sortBy_pairwise {α : Type} (le : α → α → Bool) (r : α → α → Prop)
    (htrans : ∀ a b c, r a b → r b c → r a c) (L : List α)
    (ha : ∀ p ∈ L, ∀ q ∈ L, p ≠ q → (le p q = true ↔ r p q))
    (htri : ∀ p ∈ L, ∀ q ∈ L, p ≠ q → (r p q ∨ r q p)) :
    ∀ M : List α, (∀ y ∈ M, y ∈ L) → M.Nodup → (sortBy le M).Pairwise r := by
  intro M
  induction M with
  | nil => intro _ _; exact List.Pairwise.nil
  | cons x xs ih =>
    intro hML hnd
    unfold sortBy
    have hnd' : (x :: sortBy le xs).Nodup := by
      rw [List.nodup_cons] at hnd ⊢
      exact ⟨fun h => hnd.1 ((sortBy_perm le xs).mem_iff.1 h), (sortBy_perm le xs).nodup_iff.2 hnd.2⟩
    refine insertSorted_pairwise le r htrans L ha htri (sortBy le xs) x
      (hML x (List.mem_cons_self _ _))
      (fun y hy => hML y (List.mem_cons_of_mem _ ((sortBy_perm le xs).mem_iff.1 hy)))
      hnd'
      (ih (fun y hy => hML y (List.mem_cons_of_mem _ hy)) (List.nodup_cons.1 hnd).2)

/-- Claim C6, amended. `faulty_inserts` sorts the batch by fault-weight
overhead and applies it in that order, but the content-id tie breaker fires
only when the weights are *incomparable* (`partial_cmp` returning `None`,
i.e. NaN); overhead ties keep the batch iteration order, so two runs given
the same set of messages are only guaranteed to reach identical results when
the overheads are pairwise distinct and comparable, as hypothesised here. -/
theorem claim_C6 {E : Type} [DecidableEq E] (mid : Msg E → ℕ) (st : SenderState E)
    (j : List (Msg E)) (msgs₁ msgs₂ : List (Msg E))
    (hperm : List.Perm msgs₁ msgs₂) (hnd : msgs₁.Nodup)
    (hdist : ∀ x ∈ msgs₁, ∀ y ∈ msgs₁, x ≠ y →
      ((overheadWt st x).bind (fun wx => (overheadWt st y).map (fun wy =>
        Wt.lt wx wy || Wt.lt wy wx))).getD true = true) :
    faultyInserts mid j msgs₁ st = faultyInserts mid j msgs₂ st := by
  suffices hs : sortByFaultweight mid st msgs₁ = sortByFaultweight mid st msgs₂ by
    unfold faultyInserts
    rw [hs]
  unfold sortByFaultweight
  have hpermL : List.Perm
      (msgs₁.filterMap (fun msg => (overheadWt st msg).map (fun w => (msg, w))))
      (msgs₂.filterMap (fun msg => (overheadWt st msg).map (fun w => (msg, w)))) :=
    hperm.filterMap _
  set f := fun msg : Msg E => (overheadWt st msg).map (fun w => (msg, w)) with hf
  set L₁ := msgs₁.filterMap f with hL₁
  set L₂ := msgs₂.filterMap f with hL₂
  have hchar : ∀ p ∈ L₁, overheadWt st p.1 = some p.2 ∧ p.1 ∈ msgs₁ := by
    intro p hp
    obtain ⟨m, hm, hfm⟩ := List.mem_filterMap.1 hp
    rcases ho : overheadWt st m with _ | w
    · simp only [hf, ho, Option.map_none'] at hfm
      cases hfm
    · simp only [hf, ho, Option.map_some'] at hfm
      cases hfm
      exact ⟨ho, hm⟩
  have hfst : ∀ (p q : Msg E × Wt), p ∈ L₁ → q ∈ L₁ → p ≠ q → p.1 ≠ q.1 := by
    intro p q hp hq hne h1
    obtain ⟨hop, _⟩ := hchar p hp
    obtain ⟨hoq, _⟩ := hchar q hq
    rw [h1, hoq] at hop
    exact hne (Prod.ext h1 (Option.some.inj hop).symm)
  have htri : ∀ p ∈ L₁, ∀ q ∈ L₁, p ≠ q →
      (Wt.lt p.2 q.2 = true ∨ Wt.lt q.2 p.2 = true) := by
    intro p hp q hq hne
    obtain ⟨hop, hmp⟩ := hchar p hp
    obtain ⟨hoq, hmq⟩ := hchar q hq
    have hd := hdist p.1 hmp q.1 hmq (hfst p q hp hq hne)
    rw [hop, hoq] at hd
    simpa using hd
  have ha : ∀ p ∈ L₁, ∀ q ∈ L₁, p ≠ q →
      ((decide (faultweightCmp mid p q ≠ Ordering.gt)) = true ↔ Wt.lt p.2 q.2 = true) := by
    intro p hp q hq hne
    rcases htri p hp q hq hne with h | h
    · unfold faultweightCmp
      rw [Wt.pcmp_lt_of_lt h]
      simp [h]
    · unfold faultweightCmp
      rw [Wt.pcmp_gt_of_lt h]
      simp [Wt.lt_asymm h]
  have hndL₁ : L₁.Nodup := by
    refine List.Nodup.filterMap ?_ hnd
    intro a a' b hb hb'
    simp only [hf] at hb hb'
    rcases ho : overheadWt st a with _ | w <;> simp only [ho] at hb
    · simp at hb
    · rcases ho' : overheadWt st a' with _ | w' <;> simp only [ho'] at hb'
      · simp at hb'
      · simp only [Option.map_some', Option.mem_def, Option.some.injEq] at hb hb'
        rw [← hb] at hb'
        exact (congrArg Prod.fst hb').symm
  have hsorted₁ := sortBy_pairwise
    (fun p q => decide (faultweightCmp mid p q ≠ Ordering.gt))
    (fun p q => Wt.lt p.2 q.2 = true)
    (fun a b c => Wt.lt_trans) L₁ ha htri L₁ (fun y hy => hy) hndL₁
  have hsorted₂ := sortBy_pairwise
    (fun p q => decide (faultweightCmp mid p q ≠ Ordering.gt))
    (fun p q => Wt.lt p.2 q.2 = true)
    (fun a b c => Wt.lt_trans) L₁ ha htri L₂ (fun y hy => hpermL.mem_iff.2 hy)
    (hpermL.nodup_iff.1 hndL₁)
  have hpermS : List.Perm
      (sortBy (fun p q => decide (faultweightCmp mid p q ≠ Ordering.gt)) L₁)
      (sortBy (fun p q => decide (faultweightCmp mid p q ≠ Ordering.gt)) L₂) :=
    ((sortBy_perm _ L₁).trans hpermL).trans (sortBy_perm _ L₂).symm
  haveI : IsAntisymm (Msg E × Wt) (fun p q => Wt.lt p.2 q.2 = true) :=
    ⟨fun a b h1 h2 => absurd h2 (by simp [Wt.lt_asymm h1])⟩
  have heq := List.eq_of_perm_of_sorted hpermS hsorted₁ hsorted₂
  rw [heq]

theorem claim_C6_witness :
    faultyInserts (fun _ => 0) []
      [Msg.mk 0 true [], Msg.mk 1 true []]
      (SenderState.mk Wt.zero Wt.inf [(0, Wt.fin 1), (1, Wt.inf)] none
        [(0, [Msg.mk 0 false []]), (1, [Msg.mk 1 false []])] ∅) =
    faultyInserts (fun _ => 0) []
      [Msg.mk 1 true [], Msg.mk 0 true []]
      (SenderState.mk Wt.zero Wt.inf [(0, Wt.fin 1), (1, Wt.inf)] none
        [(0, [Msg.mk 0 false []]), (1, [Msg.mk 1 false []])] ∅) :=
  claim_C6 (fun _ => 0)
    (SenderState.mk Wt.zero Wt.inf [(0, Wt.fin 1), (1, Wt.inf)] none
      [(0, [Msg.mk 0 false []]), (1, [Msg.mk 1 false []])] ∅)
    [] [Msg.mk 0 true [], Msg.mk 1 true []] [Msg.mk 1 true [], Msg.mk 0 true []]
    (by decide) (by decide) (by decide)

/-! ## Blocks and the GHOST estimator (`src/blockchain.rs`) -/

/-- Model of `ProtoBlock`/`Block` (`src/blockchain.rs:41-58`): only a `prevblock`
pointer (plus `PhantomData`); content-addressing makes equality structural. -/
inductive Blk where
  | mk (prev : Option Blk) : Blk

def Blk.prevblock : Blk → Option Blk
  | mk p => p

def Blk.decEqB : (a b : Blk) → Decidable (a = b)
  | .mk none, .mk none => isTrue rfl
  | .mk none, .mk (some _) => isFalse (by simp)
  | .mk (some _), .mk none => isFalse (by simp)
  | .mk (some p), .mk (some q) =>
    match Blk.decEqB p q with
    | isTrue h => isTrue (by rw [h])
    | isFalse h => isFalse (fun hh => by cases hh; exact h rfl)

instance : DecidableEq Blk := Blk.decEqB

/-- Chain height, the induction measure for the block DAG. -/
def Blk.height : Blk → ℕ
  | mk none => 0
  | mk (some p) => p.height + 1

/-- Model of `Block::is_member` (`src/blockchain.rs:163-170`): `self` is `rhs` or one
of its ancestors. -/
def Blk.isMember (self rhs : Blk) : Bool :=
  decide (self = rhs) ||
    (match rhs with
     | .mk (some p) => Blk.isMember self p
     | .mk none => false)

/-- Association-list lookup for block-keyed maps (`HashMap<Block, _>`). -/
def alookB {β : Type} : List (Blk × β) → Blk → Option β
  | [], _ => none
  | (k, v) :: rest, b => if k = b then some v else alookB rest b

/-- Association-list lookup for validator-keyed maps. -/
def alookV {β : Type} : List (ℕ × β) → ℕ → Option β
  | [], _ => none
  | (k, v) :: rest, s => if k = s then some v else alookV rest s

/-- Insert-or-replace for block-keyed maps (`HashMap::insert` / `collect`). -/
def alSetB {β : Type} : List (Blk × β) → Blk → β → List (Blk × β)
  | [], b, v => [(b, v)]
  | (k, w) :: rest, b, v => if k = b then (b, v) :: rest else (k, w) :: alSetB rest b v

/-- Model of `HashSet<Block>` insertion (deduplicating, insertion-ordered model). -/
def hsInsertB (l : List Blk) (b : Blk) : List Blk :=
  if b ∈ l then l else l ++ [b]

/-- Add `child` to `parent`'s recorded children (`get_mut` + `insert`). -/
def addChild (visited : List (Blk × List Blk)) (parent child : Blk) : List (Blk × List Blk) :=
  match visited with
  | [] => []
  | (k, cs) :: rest =>
    if k = parent then (k, hsInsertB cs child) :: rest
    else (k, cs) :: addChild rest parent child

/-- The `while let Some(child) = queue.pop_front()` loop of
`Block::parse_blockchains` (`src/blockchain.rs:309-336`), fuelled; the fuel
passed by `parseBlockchains` strictly exceeds the loop's decreasing measure,
so the `0` case is never reached. -/
def parseLoop : ℕ → List (Blk × List Blk) → List Blk → List Blk → Bool →
    List (Blk × List Blk) × List Blk
  | 0, visited, _, genesis, _ => (visited, genesis)
  | _ + 1, visited, [], genesis, _ => (visited, genesis)
  | fuel + 1, visited, child :: rest, genesis, wasEmpty =>
    match child.prevblock, wasEmpty && decide (genesis = []) with
    | some parent, false =>
      let wasEmpty' := if rest.isEmpty then true else wasEmpty
      if (alookB visited parent).isSome then
        parseLoop fuel (addChild visited parent child) rest genesis wasEmpty'
      else
        parseLoop fuel (visited ++ [(parent, [child])]) (rest ++ [parent]) genesis wasEmpty'
    | _, _ =>
      parseLoop fuel visited rest (hsInsertB genesis child) wasEmpty

/-- The initial `visited_parents` map of `parse_blockchains`: each distinct
tip block with an empty children set. -/
def initVisited (latestMsgs : List (Msg Blk)) : List (Blk × List Blk) :=
  latestMsgs.foldl
    (fun (acc : List (Blk × List Blk)) m =>
      if (alookB acc m.est).isSome then acc else acc ++ [(m.est, [])]) []

/-- Model of `Block::parse_blockchains` (`src/blockchain.rs:284-338`): children map,
genesis set, and the latest-blocks map. -/
def parseBlockchains (latestMsgs : List (Msg Blk)) :
    List (Blk × List Blk) × List Blk × List (Blk × ℕ) :=
  let latestBlocks := latestMsgs.foldl (fun acc m => alSetB acc m.est m.sender) []
  let queue0 := (initVisited latestMsgs).map Prod.fst
  let st := parseLoop ((queue0.map (fun b => b.height + 1)).sum + 1)
    (initVisited latestMsgs) queue0 [] false
  (st.1, st.2, latestBlocks)

/-- Modelled from the spec: `Weights::sum(subset)` (`sum_weight_validators`)
lives in `src/util/weight.rs`, which is not under `src/`; spec §6 specifies a
sum over the subset, with an unregistered validator's weight contributing the
`NAN` sentinel of §7. -/
def sumWeightValidators (w : Weights) (vs : Finset ℕ) : Wt :=
  (vs.sort (· ≤ ·)).foldl (fun acc v => Wt.add acc ((wlookup w v).getD Wt.nan)) Wt.zero

/-- Model of `Block::collect_validators` (`src/blockchain.rs:341-368`), fuelled (the
memoisation cache only speeds the source up and is omitted). -/
def collectValidators : ℕ → Blk → List (Blk × List Blk) → List (Blk × ℕ) → Finset ℕ
  | 0, _, _, _ => ∅
  | fuel + 1, block, visited, latestBlocks =>
    let validators : Finset ℕ :=
      match alookB latestBlocks block with
      | some v => {v}
      | none => ∅
    match alookB visited block with
    | some children =>
      children.foldl
        (fun acc child => collectValidators fuel child visited latestBlocks ∪ acc) validators
    | none => validators

/-- Model of `Block::pick_heaviest` (`src/blockchain.rs:371-436`), fuelled; `bid`
models the content-id order used by the tie breaker. -/
def pickHeaviest (bid : Blk → ℕ) : ℕ → List Blk → List (Blk × List Blk) → Weights →
    List (Blk × ℕ) → Option (Option Blk × Wt × List Blk)
  | 0, _, _, _, _ => none
  | fuel + 1, blocks, visited, weights, latestBlocks =>
    let heaviestChild : Option (Option Blk × Wt × List Blk) :=
      if blocks.length = 1 then
        blocks.head?.bind (fun block =>
          (alookB visited block).map (fun children => (some block, Wt.zero, children)))
      else if 1 < blocks.length then
        blocks.foldl (fun best block =>
          (best.bind (fun b =>
            (alookB visited block).map (fun children => (b, children)))).bind
            (fun bc =>
              let referredValidators :=
                collectValidators (visited.length + 1) block visited latestBlocks
              let weight := sumWeightValidators weights referredValidators
              let res := some (some block, weight, bc.2)
              let bRes := some (bc.1.1, bc.1.2.1, bc.1.2.2)
              match Wt.pcmp weight bc.1.2.1 with
              | some .gt => res
              | some .lt => bRes
              | _ =>
                match bc.1.1.map (fun b => compare (bid b) (bid block)) with
                | some .gt => res
                | some .lt => bRes
                | some .eq => bRes
                | none => none))
          (some (none, Wt.zero, []))
      else
        none
    heaviestChild.bind (fun bc =>
      if bc.2.2.isEmpty then some bc
      else pickHeaviest bid fuel bc.2.2 visited weights latestBlocks)

/-- Model of `blockchain::Error` ("Failed to get prevblock using ghost"). -/
inductive GhostError where
  | noPrevblock : GhostError
deriving DecidableEq

/-- Model of `Block::ghost` (`src/blockchain.rs:438-455`). -/
def ghost (bid : Blk → ℕ) (latestMsgs : List (Msg Blk)) (weights : Weights) :
    Except GhostError Blk :=
  let st := parseBlockchains latestMsgs
  match (pickHeaviest bid (st.1.length + 1) st.2.1 st.1 weights st.2.2).bind
      (fun bc => bc.1) with
  | some b => .ok b
  | none => .error .noPrevblock

/-! ## C2: the safety oracle (`src/blockchain.rs:172-273`) -/

theorem sum_map_sizeOf_lt {E : Type} (l : List (Msg E)) :
    ((l.map sizeOf).sum) < sizeOf l := by
  induction l with
  | nil => simp
  | cons x xs ih =>
    simp only [List.map_cons, List.sum_cons, List.cons.sizeOf_spec]
    omega

theorem Msg.sum_just_sizeOf_lt {E : Type} (m : Msg E) :
    ((m.just.map sizeOf).sum) < sizeOf m := by
  cases m with
  | mk s e j =>
    have h := sum_map_sizeOf_lt (E := E) j
    simp only [Msg.just_mk, Msg.mk.sizeOf_spec]
    omega

/-- Model of `LatestMsgs::from(&Justification)` (`src/justification.rs:312-326`): a
breadth-first walk applying `update`, descending into a message's
justification whenever the update reports it as a latest message. -/
def lmFrom {E : Type} [DecidableEq E] : List (Msg E) → LM E → LM E
  | [], lm => lm
  | m :: rest, lm =>
    if (LM.update lm m).2 then lmFrom (rest ++ m.just) (LM.update lm m).1
    else lmFrom rest (LM.update lm m).1
termination_by queue _ => (queue.map sizeOf).sum
decreasing_by
  · simp only [List.map_append, List.sum_append, List.map_cons, List.sum_cons]
    have := Msg.sum_just_sizeOf_lt m
    omega
  · simp only [List.map_cons, List.sum_cons]
    have : 0 < sizeOf m := by cases m; simp only [Msg.mk.sizeOf_spec]; omega
    omega

/-- Model of `latest_in_justification` (`src/blockchain.rs:179-187`). -/
def latestInJustification (j : List (Msg Blk)) (equivocators : Finset ℕ) :
    List (ℕ × Msg Blk) :=
  (LM.honest (lmFrom j []) equivocators).map (fun m => (m.sender, m))

/-- The recursive Bron–Kerbosch of `src/blockchain.rs:228-252`, fuelled; the
recursion depth is bounded by `|P| + 1`, so the fuel passed by
`safetyOracles` is never exhausted. -/
def bronKerbosch (neigh : ℕ → Finset ℕ) :
    ℕ → Finset ℕ → Finset ℕ → Finset ℕ → Finset (Finset ℕ)
  | 0, _, _, _ => ∅
  | fuel + 1, r, p, x =>
    if p = ∅ ∧ x = ∅ then {r}
    else
      ((p.sort (· ≤ ·)).foldl
        (fun (acc : Finset ℕ × Finset ℕ × Finset (Finset ℕ)) i =>
          let p' := acc.1.erase i
          let rnew := insert i r
          let pnew := p' ∩ neigh i
          let xnew := acc.2.1 ∩ neigh i
          (p', insert i acc.2.1, acc.2.2 ∪ bronKerbosch neigh fuel rnew pnew xnew))
        (p, x, ∅)).2.2

/-- The clique-weight fold of `src/blockchain.rs:266-270`: missing validators
weigh `NAN`. -/
def cliqueWeight (weights : Weights) (c : Finset ℕ) : Wt :=
  (c.sort (· ≤ ·)).foldl (fun acc v => Wt.add acc ((wlookup weights v).getD Wt.nan)) Wt.zero

/-- Model of `Block::safety_oracles` (`src/blockchain.rs:172-273`). -/
def safetyOracles (block : Blk) (latestMsgsHonest : List (Msg Blk))
    (equivocators : Finset ℕ) (safetyOracleThreshold : Wt) (weights : Weights) :
    Finset (Finset ℕ) :=
  let latestContainingBlock :=
    latestMsgsHonest.filter (fun msg => Blk.isMember block msg.est)
  let latestAgreeingInValidatorView : List (ℕ × List (ℕ × Msg Blk)) :=
    latestContainingBlock.map (fun m =>
      (m.sender, (latestInJustification m.just equivocators).filter
        (fun p => Blk.isMember block p.2.est)))
  let neighbours : List (ℕ × Finset ℕ) :=
    latestAgreeingInValidatorView.map (fun p =>
      (p.1, ((p.2.map Prod.fst).filter (fun vb =>
        match alookV latestAgreeingInValidatorView vb with
        | some seen => (seen.map Prod.fst).contains p.1
        | none => false)).toFinset))
  let pInit := neighbours.foldl (fun acc q => acc ∪ q.2) ∅
  let neighFun : ℕ → Finset ℕ := fun v => (alookV neighbours v).getD ∅
  let mxClqs := bronKerbosch neighFun (pInit.card + 1) ∅ pInit ∅
  mxClqs.filter (fun c => Wt.lt safetyOracleThreshold (cliqueWeight weights c) = true)

/-- Claim C2. Every clique emitted by `Block::safety_oracles` has total
validator weight strictly above the threshold: filtering the output again by
that very condition changes nothing, i.e. each returned validator set `C`
satisfies `τ < Σ_{v ∈ C} weight(v)` (with the source's `NAN` default for
unregistered validators). -/
theorem claim_C2 (block : Blk) (latestMsgsHonest : List (Msg Blk))
    (equivocators : Finset ℕ) (safetyOracleThreshold : Wt) (weights : Weights) :
    (safetyOracles block latestMsgsHonest equivocators safetyOracleThreshold
        weights).filter
      (fun c => Wt.lt safetyOracleThreshold (cliqueWeight weights c) = true) =
    safetyOracles block latestMsgsHonest equivocators safetyOracleThreshold weights := by
  apply Finset.filter_eq_self.mpr
  intro c hc
  unfold safetyOracles at hc
  simp only [Finset.mem_filter] at hc
  exact hc.2

/-! ## C7: `Block::ghost` never fails on a non-empty frontier -/

/-- Membership: `b` is a key of the visited/children map. -/
def keyB (v : List (Blk × List Blk)) (b : Blk) : Prop := (alookB v b).isSome = true

/-- The shape of the children map built by `parse_blockchains`: every
children set is empty or the unique child block, and children are keys. -/
def childInv (v : List (Blk × List Blk)) : Prop :=
  ∀ p cs, (p, cs) ∈ v → (cs = [] ∨ cs = [Blk.mk (some p)]) ∧ ∀ c ∈ cs, keyB v c

theorem alookB_mem {β : Type} (v : List (Blk × β)) (b : Blk) (x : β)
    (h : alookB v b = some x) : (b, x) ∈ v := by
  induction v with
  | nil => cases h
  | cons p rest ih =>
    cases p with
    | mk k w =>
      simp only [alookB] at h
      split_ifs at h with hk
      · cases h
        rw [hk]
        exact List.mem_cons_self _ _
      · exact List.mem_cons_of_mem _ (ih h)

theorem alookB_cons {β : Type} (k : Blk) (v : β) (rest : List (Blk × β)) (b : Blk) :
    alookB ((k, v) :: rest) b = if k = b then some v else alookB rest b := rfl

theorem keyB_of_mem_fst (v : List (Blk × List Blk)) (b : Blk)
    (h : b ∈ v.map Prod.fst) : keyB v b := by
  induction v with
  | nil => simp at h
  | cons p rest ih =>
    cases p with
    | mk k cs =>
      unfold keyB
      rw [alookB_cons]
      simp only [List.map_cons, List.mem_cons] at h
      rcases h with rfl | h'
      · simp
      · by_cases hk : k = b
        · simp [hk]
        · simpa [hk] using ih h'

theorem keyB_append (v : List (Blk × List Blk)) (e : Blk × List Blk) (b : Blk)
    (h : keyB v b) : keyB (v ++ [e]) b := by
  induction v with
  | nil => simp [keyB, alookB] at h
  | cons p rest ih =>
    cases p with
    | mk k cs =>
      unfold keyB at h ⊢
      rw [alookB_cons] at h
      rw [List.cons_append, alookB_cons]
      by_cases hk : k = b
      · simp [hk]
      · rw [if_neg hk] at h ⊢
        exact ih h

theorem keyB_append_self (v : List (Blk × List Blk)) (b : Blk) (cs : List Blk) :
    keyB (v ++ [(b, cs)]) b := by
  induction v with
  | nil => simp [keyB, alookB]
  | cons p rest ih =>
    cases p with
    | mk k w =>
      unfold keyB
      rw [List.cons_append, alookB_cons]
      by_cases hk : k = b
      · simp [hk]
      · simpa [hk] using ih

theorem addChild_entries (v : List (Blk × List Blk)) (a c : Blk) (p : Blk)
    (cs' : List Blk) (h : (p, cs') ∈ addChild v a c) :
    ∃ cs, (p, cs) ∈ v ∧ (cs' = cs ∨ (p = a ∧ cs' = hsInsertB cs c)) := by
  induction v with
  | nil => cases h
  | cons q rest ih =>
    cases q with
    | mk k w =>
      unfold addChild at h
      split_ifs at h with hk
      · rcases List.mem_cons.1 h with heq | h'
        · cases heq
          exact ⟨w, List.mem_cons_self _ _, Or.inr ⟨hk, rfl⟩⟩
        · exact ⟨cs', List.mem_cons_of_mem _ h', Or.inl rfl⟩
      · rcases List.mem_cons.1 h with heq | h'
        · cases heq
          exact ⟨cs', List.mem_cons_self _ _, Or.inl rfl⟩
        · obtain ⟨cs, hcs, hor⟩ := ih h'
          exact ⟨cs, List.mem_cons_of_mem _ hcs, hor⟩

theorem addChild_keys (v : List (Blk × List Blk)) (a c : Blk) :
    (addChild v a c).map Prod.fst = v.map Prod.fst := by
  induction v with
  | nil => rfl
  | cons q rest ih =>
    cases q with
    | mk k w =>
      unfold addChild
      split_ifs with hk
      · simp [hk]
      · simp [ih]

theorem keyB_addChild (v : List (Blk × List Blk)) (a c b : Blk) (h : keyB v b) :
    keyB (addChild v a c) b := by
  induction v with
  | nil => simp [keyB, alookB] at h
  | cons q rest ih =>
    cases q with
    | mk k w =>
      unfold keyB at h ⊢
      rw [alookB_cons] at h
      unfold addChild
      split_ifs with hk
      · subst hk
        rw [alookB_cons]
        by_cases hb : k = b
        · simp [hb]
        · rw [if_neg hb] at h ⊢
          exact h
      · rw [alookB_cons]
        by_cases hb : k = b
        · simp [hb]
        · rw [if_neg hb] at h ⊢
          exact ih h

theorem alookB_append_of_none {β : Type} (v : List (Blk × β)) (b : Blk) (x : β)
    (h : alookB v b = none) : alookB (v ++ [(b, x)]) b = some x := by
  induction v with
  | nil => simp [alookB]
  | cons p rest ih =>
    cases p with
    | mk k w =>
      rw [alookB_cons] at h
      rw [List.cons_append, alookB_cons]
      by_cases hk : k = b
      · rw [if_pos hk] at h
        cases h
      · rw [if_neg hk] at h ⊢
        exact ih h

theorem exists_min_height (l : List Blk) (h : l ≠ []) :
    ∃ m ∈ l, ∀ k ∈ l, m.height ≤ k.height := by
  induction l with
  | nil => exact absurd rfl h
  | cons x xs ih =>
    rcases Decidable.em (xs = []) with rfl | hne
    · exact ⟨x, List.mem_cons_self _ _, by simp⟩
    · obtain ⟨m, hm, hmin⟩ := ih hne
      by_cases hc : x.height ≤ m.height
      · refine ⟨x, List.mem_cons_self _ _, ?_⟩
        intro k hk
        rcases List.mem_cons.1 hk with rfl | hk
        · exact le_refl _
        · exact le_trans hc (hmin k hk)
      · refine ⟨m, List.mem_cons_of_mem _ hm, ?_⟩
        intro k hk
        rcases List.mem_cons.1 hk with rfl | hk
        · exact le_of_not_le hc
        · exact hmin k hk

theorem hsInsertB_ne_nil (l : List Blk) (b : Blk) : hsInsertB l b ≠ [] := by
  unfold hsInsertB
  split_ifs with h
  · intro hl
    rw [hl] at h
    cases h
  · simp

theorem parseLoop_spec :
    ∀ (fuel : ℕ) (visited : List (Blk × List Blk)) (queue genesis : List Blk)
      (wasEmpty : Bool),
    (queue.map (fun b => b.height + 1)).sum < fuel →
    (wasEmpty = true → queue.length ≤ 1) →
    (∀ b ∈ queue, keyB visited b) →
    childInv visited →
    (genesis = [] ∨ ∃ g, genesis = [g] ∧ keyB visited g ∧
      (g = Blk.mk none ∨ queue = [])) →
    (genesis = [] → queue ≠ [] →
      ∃ m ∈ queue, ∀ p cs, (p, cs) ∈ visited → m.height ≤ p.height) →
    (genesis ≠ [] ∨ queue ≠ []) →
    ∃ b, (parseLoop fuel visited queue genesis wasEmpty).2 = [b] ∧
      keyB (parseLoop fuel visited queue genesis wasEmpty).1 b ∧
      childInv (parseLoop fuel visited queue genesis wasEmpty).1 := by
  intro fuel
  induction fuel with
  | zero =>
    intro visited queue genesis wasEmpty hfuel _ _ _ _ _ _
    omega
  | succ fuel ih =>
    intro visited queue genesis wasEmpty hfuel hW hQ hC hS hG hNE
    rcases queue with _ | ⟨child, rest⟩
    · simp only [parseLoop]
      rcases hNE with hg | hq
      · rcases hS with rfl | ⟨g, rfl, hkey, _⟩
        · exact absurd rfl hg
        · exact ⟨g, rfl, hkey, hC⟩
      · exact absurd rfl hq
    · have hchild_key : keyB visited child := hQ child (List.mem_cons_self _ _)
      have hfuel_rest : ((rest.map (fun b => b.height + 1)).sum) < fuel := by
        simp only [List.map_cons, List.sum_cons] at hfuel
        omega
      rcases hlatch : (wasEmpty && decide (genesis = [])) with _ | _
      · -- latch off
        cases hprevE : child.prevblock with
        | none =>
          -- genesis block reached
          have hroot : child = Blk.mk none := by
            cases child with
            | mk p => cases hprevE; rfl
          simp only [parseLoop, hprevE, hlatch]
          apply ih
          · exact hfuel_rest
          · intro hwe
            have := hW hwe
            simp only [List.length_cons] at this
            omega
          · exact fun b hb => hQ b (List.mem_cons_of_mem _ hb)
          · exact hC
          · right
            rcases hS with rfl | ⟨g, rfl, hkey, hor⟩
            · exact ⟨child, by simp [hsInsertB], hchild_key, Or.inl hroot⟩
            · rcases hor with hgr | hqe
              · have hcg : child = g := by rw [hroot, hgr]
                exact ⟨g, by simp [hsInsertB, hcg], hkey, Or.inl hgr⟩
              · cases hqe
          · intro hgnil
            exact absurd hgnil (hsInsertB_ne_nil genesis child)
          · left
            exact hsInsertB_ne_nil genesis child
        | some parent =>
          have hchild_eq : child = Blk.mk (some parent) := by
            cases child with
            | mk p => cases hprevE; rfl
          have hheight : child.height = parent.height + 1 := by
            rw [hchild_eq]; rfl
          simp only [parseLoop, hprevE, hlatch]
          by_cases hpk : (alookB visited parent).isSome = true
          · -- parent already visited: record the fork child
            simp only [hpk, if_true]
            have hW' : (if rest.isEmpty then true else wasEmpty) = true →
                rest.length ≤ 1 := by
              intro hwe
              by_cases hre : rest.isEmpty
              · rw [List.isEmpty_iff] at hre
                simp [hre]
              · rw [if_neg hre] at hwe
                have := hW hwe
                simp only [List.length_cons] at this
                omega
            have hparent_mem : ∃ pcs, (parent, pcs) ∈ visited := by
              rcases halp : alookB visited parent with _ | pcs
              · rw [halp] at hpk; cases hpk
              · exact ⟨pcs, alookB_mem visited parent pcs halp⟩
            apply ih
            · exact hfuel_rest
            · exact hW'
            · exact fun b hb => keyB_addChild _ _ _ _ (hQ b (List.mem_cons_of_mem _ hb))
            · intro p cs' hmem
              obtain ⟨cs, hcs, hor⟩ := addChild_entries visited parent child p cs' hmem
              obtain ⟨hshape, hkeys⟩ := hC p cs hcs
              rcases hor with rfl | ⟨rfl, rfl⟩
              · exact ⟨hshape, fun c hc => keyB_addChild _ _ _ _ (hkeys c hc)⟩
              · constructor
                · rcases hshape with rfl | rfl
                  · right
                    rw [← hchild_eq]
                    simp [hsInsertB]
                  · right
                    rw [← hchild_eq]
                    simp [hsInsertB]
                · intro c hc
                  unfold hsInsertB at hc
                  split_ifs at hc with hmem'
                  · exact keyB_addChild _ _ _ _ (hkeys c hc)
                  · rcases List.mem_append.1 hc with hc | hc
                    · exact keyB_addChild _ _ _ _ (hkeys c hc)
                    · rw [List.mem_singleton.1 hc]
                      exact keyB_addChild _ _ _ _ hchild_key
            · rcases hS with rfl | ⟨g, rfl, hkey, hor⟩
              · exact Or.inl rfl
              · rcases hor with hgr | hqe
                · exact Or.inr ⟨g, rfl, keyB_addChild _ _ _ _ hkey, Or.inl hgr⟩
                · cases hqe
            · intro hgnil hrne
              obtain ⟨m, hm, hmin⟩ := hG hgnil (by simp)
              rcases List.mem_cons.1 hm with rfl | hm'
              · exfalso
                obtain ⟨pcs, hpcs⟩ := hparent_mem
                have := hmin parent pcs hpcs
                omega
              · refine ⟨m, hm', ?_⟩
                intro p cs' hmem
                obtain ⟨cs, hcs, _⟩ := addChild_entries visited parent child p cs' hmem
                exact hmin p cs hcs
            · by_cases hg : genesis = []
              · by_cases hr : rest = []
                · exfalso
                  obtain ⟨m, hm, hmin⟩ := hG hg (by simp)
                  rcases List.mem_cons.1 hm with rfl | hm'
                  · obtain ⟨pcs, hpcs⟩ := hparent_mem
                    have := hmin parent pcs hpcs
                    omega
                  · rw [hr] at hm'
                    cases hm'
                · exact Or.inr hr
              · exact Or.inl hg
          · -- parent unseen: push it
            simp only [Bool.not_eq_true] at hpk
            simp only [hpk, Bool.false_eq_true, if_false]
            have hkey_parent : keyB (visited ++ [(parent, [child])]) parent := by
              unfold keyB
              rw [alookB_append_of_none visited parent [child]
                (Option.not_isSome_iff_eq_none.1 (by rw [hpk]; simp))]
              rfl
            apply ih
            · simp only [List.map_append, List.sum_append, List.map_cons, List.sum_cons,
                List.map_nil, List.sum_nil]
              simp only [List.map_cons, List.sum_cons] at hfuel
              rw [hheight] at hfuel
              omega
            · intro hwe
              by_cases hre : rest.isEmpty
              · rw [List.isEmpty_iff] at hre
                simp [hre]
              · rw [if_neg hre] at hwe
                have h1 := hW hwe
                simp only [List.length_cons] at h1
                have h2 : rest ≠ [] := by simpa using hre
                have h3 : 0 < rest.length := List.length_pos.2 h2
                omega
            · intro b hb
              rcases List.mem_append.1 hb with hb | hb
              · exact keyB_append _ _ _ (hQ b (List.mem_cons_of_mem _ hb))
              · rw [List.mem_singleton.1 hb]
                exact hkey_parent
            · intro p cs' hmem
              rcases List.mem_append.1 hmem with hmem | hmem
              · obtain ⟨hshape, hkeys⟩ := hC p cs' hmem
                exact ⟨hshape, fun c hc => keyB_append _ _ _ (hkeys c hc)⟩
              · rw [List.mem_singleton] at hmem
                cases hmem
                refine ⟨Or.inr (by rw [← hchild_eq]), ?_⟩
                intro c hc
                rw [List.mem_singleton.1 hc]
                exact keyB_append _ _ _ hchild_key
            · rcases hS with rfl | ⟨g, rfl, hkey, hor⟩
              · exact Or.inl rfl
              · rcases hor with hgr | hqe
                · exact Or.inr ⟨g, rfl, keyB_append _ _ _ hkey, Or.inl hgr⟩
                · cases hqe
            · intro hgnil _
              obtain ⟨m, hm, hmin⟩ := hG hgnil (by simp)
              rcases List.mem_cons.1 hm with rfl | hm'
              · refine ⟨parent, List.mem_append.2 (Or.inr (List.mem_singleton.2 rfl)), ?_⟩
                intro p cs' hmem
                rcases List.mem_append.1 hmem with hmem | hmem
                · have := hmin p cs' hmem
                  omega
                · rw [List.mem_singleton] at hmem
                  cases hmem
                  exact le_refl _
              · by_cases hpm : parent.height ≤ m.height
                · refine ⟨parent, List.mem_append.2 (Or.inr (List.mem_singleton.2 rfl)), ?_⟩
                  intro p cs' hmem
                  rcases List.mem_append.1 hmem with hmem | hmem
                  · exact le_trans hpm (hmin p cs' hmem)
                  · rw [List.mem_singleton] at hmem
                    cases hmem
                    exact le_refl _
                · refine ⟨m, List.mem_append.2 (Or.inl hm'), ?_⟩
                  intro p cs' hmem
                  rcases List.mem_append.1 hmem with hmem | hmem
                  · exact hmin p cs' hmem
                  · rw [List.mem_singleton] at hmem
                    cases hmem
                    exact le_of_not_le hpm
            · right
              simp
      · -- latch on: the current child becomes the (finalised) genesis
        have hwe : wasEmpty = true ∧ genesis = [] := by
          rw [Bool.and_eq_true, decide_eq_true_eq] at hlatch
          exact hlatch
        have hrest_nil : rest = [] := by
          have := hW hwe.1
          simp only [List.length_cons] at this
          rw [← List.length_eq_zero]
          omega
        have hred : parseLoop (fuel + 1) visited (child :: rest) genesis wasEmpty =
            parseLoop fuel visited rest (hsInsertB genesis child) wasEmpty := by
          cases hprevE : child.prevblock with
          | none => simp only [parseLoop, hprevE, hlatch]
          | some parent => simp only [parseLoop, hprevE, hlatch]
        rw [hred]
        apply ih
        · exact hfuel_rest
        · intro _
          rw [hrest_nil]
          simp
        · exact fun b hb => hQ b (List.mem_cons_of_mem _ hb)
        · exact hC
        · right
          rw [hwe.2]
          exact ⟨child, by simp [hsInsertB], hchild_key, Or.inr hrest_nil⟩
        · intro hgnil
          exact absurd hgnil (hsInsertB_ne_nil genesis child)
        · left
          exact hsInsertB_ne_nil genesis child

theorem initVisited_entries (l : List (Msg Blk)) :
    ∀ (acc : List (Blk × List Blk)), (∀ p cs, (p, cs) ∈ acc → cs = []) →
    ∀ p cs, (p, cs) ∈ l.foldl
      (fun (acc : List (Blk × List Blk)) m =>
        if (alookB acc m.est).isSome then acc else acc ++ [(m.est, [])]) acc → cs = [] := by
  induction l with
  | nil => intro acc h; exact h
  | cons m rest ih =>
    intro acc h
    rw [List.foldl_cons]
    apply ih
    intro p cs hmem
    split_ifs at hmem with hsome
    · exact h p cs hmem
    · rcases List.mem_append.1 hmem with hmem | hmem
      · exact h p cs hmem
      · rw [List.mem_singleton] at hmem
        cases hmem
        rfl

theorem initVisited_ne_nil (l : List (Msg Blk)) (hne : l ≠ []) : initVisited l ≠ [] := by
  have haux : ∀ (l' : List (Msg Blk)) (acc : List (Blk × List Blk)), acc ≠ [] →
      l'.foldl (fun (acc : List (Blk × List Blk)) m =>
        if (alookB acc m.est).isSome then acc else acc ++ [(m.est, [])]) acc ≠ [] := by
    intro l'
    induction l' with
    | nil => intro acc h; exact h
    | cons m rest ih =>
      intro acc h
      rw [List.foldl_cons]
      apply ih
      split_ifs with hsome
      · exact h
      · simp
  rcases l with _ | ⟨m, rest⟩
  · exact absurd rfl hne
  · unfold initVisited
    rw [List.foldl_cons]
    apply haux
    simp [alookB]

theorem parseBlockchains_spec (msgs : List (Msg Blk)) (hne : msgs ≠ []) :
    ∃ b, (parseBlockchains msgs).2.1 = [b] ∧ keyB (parseBlockchains msgs).1 b ∧
      childInv (parseBlockchains msgs).1 := by
  have hq0ne : (initVisited msgs).map Prod.fst ≠ [] := by
    intro h
    exact initVisited_ne_nil msgs hne (List.map_eq_nil.1 h)
  have hCI : childInv (initVisited msgs) := by
    intro p cs hmem
    have hcs : cs = [] := initVisited_entries msgs [] (by intro _ _ h; cases h) p cs hmem
    subst hcs
    exact ⟨Or.inl rfl, by intro c hc; cases hc⟩
  have hspec := parseLoop_spec
    (((((initVisited msgs).map Prod.fst).map (fun b => b.height + 1)).sum) + 1)
    (initVisited msgs) ((initVisited msgs).map Prod.fst) [] false
    (Nat.lt_succ_self _)
    (by intro h; cases h)
    (fun b hb => keyB_of_mem_fst _ b hb)
    hCI
    (Or.inl rfl)
    (by
      intro _ hq
      obtain ⟨m, hm, hmin⟩ := exists_min_height _ hq
      exact ⟨m, hm, fun p cs hmem => hmin p (List.mem_map_of_mem Prod.fst hmem)⟩)
    (Or.inr hq0ne)
  exact hspec

theorem mem_fst_of_keyB (v : List (Blk × List Blk)) (b : Blk) (h : keyB v b) :
    b ∈ v.map Prod.fst := by
  unfold keyB at h
  rcases hl : alookB v b with _ | cs
  · rw [hl] at h; cases h
  · exact List.mem_map_of_mem Prod.fst (alookB_mem v b cs hl)

theorem countP_lt_of_mem {α : Type} (p q : α → Bool) (a : α) :
    ∀ (l : List α), a ∈ l → p a = true → q a = false →
    (∀ x, q x = true → p x = true) → l.countP q < l.countP p := by
  intro l
  induction l with
  | nil => intro h; cases h
  | cons x xs ih =>
    intro hmem hpa hqa himp
    rw [List.countP_cons, List.countP_cons]
    have hmono : xs.countP q ≤ xs.countP p :=
      List.countP_mono_left (fun x _ hx => himp x hx)
    rcases List.mem_cons.1 hmem with rfl | hmem'
    · rw [hpa, hqa, if_pos rfl, if_neg (by simp)]
      omega
    · have hlt := ih hmem' hpa hqa himp
      have hle : (if q x = true then 1 else 0) ≤ (if p x = true then 1 else 0) := by
        by_cases hqx : q x = true
        · rw [if_pos hqx, if_pos (himp x hqx)]
        · rw [if_neg hqx]
          omega
      omega

theorem pickHeaviest_some (bid : Blk → ℕ) (visited : List (Blk × List Blk))
    (weights : Weights) (latestBlocks : List (Blk × ℕ)) (hC : childInv visited) :
    ∀ (fuel : ℕ) (b : Blk), keyB visited b →
    ((visited.map Prod.fst).countP (fun k => decide (b.height ≤ k.height))) < fuel →
    ∃ blk w cs, pickHeaviest bid fuel [b] visited weights latestBlocks =
      some (some blk, w, cs) := by
  intro fuel
  induction fuel with
  | zero =>
    intro b _ hcount
    omega
  | succ fuel ih =>
    intro b hkey hcount
    rcases hcs : alookB visited b with _ | cs
    · unfold keyB at hkey
      rw [hcs] at hkey
      cases hkey
    · have hmem := alookB_mem visited b cs hcs
      obtain ⟨hshape, hkeys⟩ := hC b cs hmem
      rcases hshape with rfl | rfl
      · exact ⟨b, Wt.zero, [], by simp [pickHeaviest, hcs]⟩
      · have hchildkey : keyB visited (Blk.mk (some b)) :=
          hkeys _ (List.mem_singleton.2 rfl)
      -- the recursion gets one more height level and strictly fewer candidates
        have hcount' : ((visited.map Prod.fst).countP
            (fun k => decide ((Blk.mk (some b)).height ≤ k.height))) < fuel := by
          have hstrict := countP_lt_of_mem
            (fun k => decide (b.height ≤ k.height))
            (fun k => decide ((Blk.mk (some b)).height ≤ k.height))
            b (visited.map Prod.fst)
            (List.mem_map_of_mem Prod.fst hmem)
            (by simp)
            (by simp [Blk.height])
            (by
              intro x hx
              simp only [decide_eq_true_eq, Blk.height] at hx ⊢
              omega)
          omega
        obtain ⟨blk, w, cs', hrec⟩ := ih (Blk.mk (some b)) hchildkey hcount'
        exact ⟨blk, w, cs', by simp [pickHeaviest, hcs, hrec]⟩

/-- Claim C7. `Block::ghost` fails (with the no-prevblock error) when the
honest frontier is empty, and for every non-empty frontier of block
messages with non-negative validator weights it returns a block — never "no
result". -/
theorem claim_C7 (bid : Blk → ℕ) (msgs : List (Msg Blk)) (weights : Weights)
    (hw : ∀ p ∈ weights, Wt.le Wt.zero p.2 = true) :
    (msgs = [] → ghost bid msgs weights = Except.error GhostError.noPrevblock) ∧
    (msgs ≠ [] → (ghost bid msgs weights).isOk = true) := by
  constructor
  · rintro rfl
    rfl
  · intro hne
    obtain ⟨b, hgen, hkey, hC⟩ := parseBlockchains_spec msgs hne
    have hcount : ((parseBlockchains msgs).1.map Prod.fst).countP
        (fun k => decide (b.height ≤ k.height)) < (parseBlockchains msgs).1.length + 1 := by
      have h1 := List.countP_le_length
        (p := fun k => decide (b.height ≤ k.height))
        (l := (parseBlockchains msgs).1.map Prod.fst)
      rw [List.length_map] at h1
      omega
    obtain ⟨blk, w, cs, hpick⟩ := pickHeaviest_some bid (parseBlockchains msgs).1 weights
      (parseBlockchains msgs).2.2 hC ((parseBlockchains msgs).1.length + 1) b hkey hcount
    have hdef : ghost bid msgs weights =
        (match (pickHeaviest bid ((parseBlockchains msgs).1.length + 1)
            (parseBlockchains msgs).2.1 (parseBlockchains msgs).1 weights
            (parseBlockchains msgs).2.2).bind (fun bc => bc.1) with
         | some b => Except.ok b
         | none => Except.error GhostError.noPrevblock) := rfl
    rw [hdef, hgen, hpick]
    rfl

theorem claim_C7_witness :
    (ghost (fun _ => 0) [Msg.mk 0 (Blk.mk none) []] []).isOk = true :=
  (claim_C7 (fun _ => 0) [Msg.mk 0 (Blk.mk none) []] [] (by decide)).2 (by decide)
